import Mathlib

/-!
Verification of the spectral-analysis kernel of the Signal Equalizer backend.

The definitions below are a shallow embedding of the Python sources
`app/services/dsp/fft_processor.py` (class `FFTProcessor`) and
`app/services/dsp/equalizer.py` (class `Equalizer`).  Machine floating
point is modelled by exact real/complex arithmetic; numpy's
`x / 0 → inf/nan` followed by `nan_to_num(·, 0)` coincides with Lean's
convention `x / 0 = 0`, which is noted wherever it is used.
-/

noncomputable section

open Complex

/-- Twiddle factor `exp(-2j*pi*k/L)`, the entry `factors[k]` precomputed in
`fft_iterative` (`factors = np.exp(-2j*np.pi*np.arange(half_len)/length)`). -/
def tw (L k : ℕ) : ℂ := Complex.exp (-(2 * (Real.pi : ℂ) * Complex.I) * k / L)

/-- Reversal of the low `b` bits of `i` (the index permutation computed by the
bit-reversal loop of `fft_iterative`). -/
def bitRev : ℕ → ℕ → ℕ
  | 0, _ => 0
  | b + 1, i => i % 2 * 2 ^ b + bitRev b (i / 2)

/-- The inner `while j >= bit: j -= bit; bit >>= 1` loop of the bit-reversal
permutation in `fft_iterative`, returning the final `(j, bit)` pair.
(The Python loop never reaches `bit = 0` on the inputs the algorithm feeds it;
the `bit = 0` base case is therefore unreachable there.) -/
def revIncAux (j bit : ℕ) : ℕ × ℕ :=
  if h : bit = 0 then (j, bit)
  else if bit ≤ j then revIncAux (j - bit) (bit / 2)
  else (j, bit)
termination_by bit
decreasing_by exact Nat.div_lt_self (Nat.pos_of_ne_zero h) one_lt_two

/-- Python's simultaneous swap `x[i], x[j] = x[j], x[i]` on the array modelled
as a function. -/
def swapFn (a : ℕ → ℂ) (i j : ℕ) : ℕ → ℂ :=
  Function.update (Function.update a i (a j)) j (a i)

/-- The body of one iteration of the bit-reversal loop of `fft_iterative`:
`bit = n >> 1; while j >= bit: ...; j += bit; if i < j: swap x[i], x[j]`. -/
def bitrevStep (n : ℕ) (s : ℕ × (ℕ → ℂ)) (i : ℕ) : ℕ × (ℕ → ℂ) :=
  let p := revIncAux s.1 (n >>> 1)
  let j := p.1 + p.2
  (j, if i < j then swapFn s.2 i j else s.2)

/-- The bit-reversal permutation loop of `fft_iterative`
(`for i in range(1, n): ...`), carrying the running `j` together with the
array.  Returns the final `(j, array)` state. -/
def bitrevLoop (n : ℕ) (a : ℕ → ℂ) : ℕ × (ℕ → ℂ) :=
  (List.range' 1 (n - 1)).foldl (bitrevStep n) (0, a)

/-- One butterfly of `fft_iterative`:
`u = x[idx]; v = factors[j] * x[idx + half_len]; x[idx] = u + v;
x[idx + half_len] = u - v` with `idx = i + j`. -/
def butterflyStep (L : ℕ) (a : ℕ → ℂ) (idx j : ℕ) : ℕ → ℂ :=
  let half := L / 2
  let u := a idx
  let v := tw L j * a (idx + half)
  Function.update (Function.update a idx (u + v)) (idx + half) (u - v)

/-- The inner `for j in range(half_len)` loop of a stage, on the block that
starts at index `i`. -/
def stageBlock (L i : ℕ) (a : ℕ → ℂ) : ℕ → ℂ :=
  (List.range (L / 2)).foldl (fun b j => butterflyStep L b (i + j) j) a

/-- The `for i in range(0, n, length)` loop of one stage of `fft_iterative`
(`range(0, n, L)` has `⌈n / L⌉` elements `0, L, 2L, ...`). -/
def stagePass (n L : ℕ) (a : ℕ → ℂ) : ℕ → ℂ :=
  ((List.range ((n + L - 1) / L)).map (· * L)).foldl (fun b i => stageBlock L i b) a

/-- The outer `length = 2; while length <= n: ...; length <<= 1` loop of
`fft_iterative`: stages of size `2, 4, ..., 2 ^ ⌊log2 n⌋`. -/
def fftStages (n : ℕ) (a : ℕ → ℂ) : ℕ → ℂ :=
  (List.range (Nat.log 2 n)).foldl (fun b m => stagePass n (2 ^ (m + 1)) b) a

/-- `FFTProcessor.fft_iterative`: bit-reversal permutation followed by the
iterative butterfly stages, read back as a list. -/
def fftIter (x : List ℂ) : List ℂ :=
  let n := x.length
  let a : ℕ → ℂ := fun p => x.getD p 0
  (List.range n).map (fftStages n (bitrevLoop n a).2)

/-- `FFTProcessor.fft`: return inputs of length ≤ 1 unchanged; zero-pad a
non-power-of-two length (`n & (n-1) != 0`) to the next power of two
(`2 ** math.ceil(math.log2(n))`, i.e. `2 ^ Nat.clog 2 n`); then run
`fft_iterative`. -/
def fft (x : List ℂ) : List ℂ :=
  let n := x.length
  if n ≤ 1 then x
  else if n &&& (n - 1) ≠ 0 then
    fftIter (x ++ List.replicate (2 ^ Nat.clog 2 n - n) 0)
  else fftIter x

/-- `FFTProcessor.ifft`: conjugate, apply `fft`, conjugate, divide by `n`,
take the real part (`np.real`). -/
def ifft (X : List ℂ) : List ℝ :=
  let n := X.length
  let xf := fft (X.map (starRingEnd ℂ))
  xf.map fun z => ((starRingEnd ℂ) z / (n : ℂ)).re

/-- `fft` applied to a real-valued signal (numpy promotes the real array to
complex inside `fft_iterative`). -/
def fftR (x : List ℝ) : List ℂ := fft (x.map Complex.ofReal)

/-- Truncate or right-pad (with zeros) to length `n` — the
`if len > original_length: truncate elif len < original_length: pad` step
used by `apply_equalizer` and by the round-trip property. -/
def truncPad (n : ℕ) (l : List ℝ) : List ℝ :=
  l.take n ++ List.replicate (n - l.length) 0

/-- The textbook discrete Fourier transform of the entries of `x`
(used as the specification that `fft_iterative` is proved to meet):
bin `t` holds `∑ s, x[s] · exp(-2πi·t·s/n)`. -/
def dftBin (x : List ℂ) (t : ℕ) : ℂ :=
  ∑ s ∈ Finset.range x.length, x.getD s 0 * tw x.length (t * s)

-- ## Basic length facts

theorem fftIter_length (x : List ℂ) : (fftIter x).length = x.length := by
  simp [fftIter]

theorem land_pred_of_pow2 (k : ℕ) : 2 ^ k &&& (2 ^ k - 1) = 0 := by
  refine Nat.eq_of_testBit_eq fun i => ?_
  simp only [Nat.testBit_and, Nat.zero_testBit, Nat.testBit_two_pow,
    Nat.testBit_two_pow_sub_one]
  by_cases h : k = i <;> simp [h]

theorem eq_pow_ne_zero {m : ℕ} (hm : 0 < m) : ∃ i, m.testBit i = true := by
  by_contra hall
  push_neg at hall
  have : m = 0 := Nat.eq_of_testBit_eq fun i => by
    simp only [Nat.zero_testBit]
    exact (Bool.not_eq_true _).mp (hall i)
  omega

theorem land_pred_bits {n : ℕ} (h : n &&& (n - 1) = 0) (i : ℕ) :
    (n.testBit i && (n - 1).testBit i) = false := by
  have := congrArg (fun t => t.testBit i) h
  simpa only [Nat.testBit_and, Nat.zero_testBit] using this

theorem pow2_of_land_pred {n : ℕ} (hn : 0 < n) (h : n &&& (n - 1) = 0) :
    ∃ k, n = 2 ^ k := by
  induction n using Nat.strong_induction_on with
  | _ n ih =>
    rcases Nat.lt_or_ge n 2 with h2 | h2
    · have : n = 1 := by omega
      exact ⟨0, by omega⟩
    · have hodd : ¬ Odd n := by
        rintro ⟨m, hmo⟩
        have hm1 : 0 < m := by omega
        obtain ⟨i, hi⟩ := eq_pow_ne_zero hm1
        have hb := land_pred_bits h (i + 1)
        rw [Nat.testBit_succ, Nat.testBit_succ] at hb
        have e1 : n / 2 = m := by omega
        have e2 : (n - 1) / 2 = m := by omega
        rw [e1, e2, hi] at hb
        simp at hb
      obtain ⟨m, hme⟩ := Nat.even_or_odd n |>.resolve_right hodd
      have hmn : n = 2 * m := by omega
      have hm1 : 0 < m := by omega
      have hstep : m &&& (m - 1) = 0 := by
        refine Nat.eq_of_testBit_eq fun i => ?_
        have hb := land_pred_bits h (i + 1)
        rw [Nat.testBit_succ, Nat.testBit_succ] at hb
        have e1 : n / 2 = m := by omega
        have e2 : (n - 1) / 2 = m - 1 := by omega
        rw [e1, e2] at hb
        simp only [Nat.testBit_and, Nat.zero_testBit]
        exact hb
      obtain ⟨k, hk⟩ := ih m (by omega) hm1 hstep
      exact ⟨k + 1, by omega⟩

theorem fft_length (x : List ℂ) :
    (fft x).length =
      if x.length ≤ 1 then x.length
      else if x.length &&& (x.length - 1) ≠ 0 then 2 ^ Nat.clog 2 x.length
      else x.length := by
  simp only [fft]
  split
  · rfl
  · split
    · rename_i h1 h2
      rw [fftIter_length]
      have hle : x.length ≤ 2 ^ Nat.clog 2 x.length :=
        Nat.le_pow_clog one_lt_two _
      simp only [List.length_append, List.length_replicate]
      omega
    · rw [fftIter_length]

theorem ifft_length (X : List ℂ) : (ifft X).length = (fft (X.map (starRingEnd ℂ))).length := by
  simp [ifft]

theorem truncPad_length (n : ℕ) (l : List ℝ) : (truncPad n l).length = n := by
  simp only [truncPad, List.length_append, List.length_take, List.length_replicate]
  omega

-- ## Bit reversal

theorem bitRev_lt (b i : ℕ) : bitRev b i < 2 ^ b := by
  induction b generalizing i with
  | zero => simp [bitRev]
  | succ b ih =>
    simp only [bitRev]
    have h1 := ih (i / 2)
    have h2 : i % 2 ≤ 1 := by omega
    have h3 : i % 2 * 2 ^ b ≤ 1 * 2 ^ b := Nat.mul_le_mul_right _ h2
    have h4 : 2 ^ (b + 1) = 2 ^ b + 2 ^ b := by rw [pow_succ]; omega
    omega

theorem bitRev_zero (b : ℕ) : bitRev b 0 = 0 := by
  induction b with
  | zero => rfl
  | succ b ih => simp [bitRev, ih]

theorem bitRev_msb_split (b : ℕ) : ∀ e r, e < 2 → r < 2 ^ b →
    bitRev (b + 1) (e * 2 ^ b + r) = 2 * bitRev b r + e := by
  induction b with
  | zero =>
    intro e r he hr
    have : r = 0 := by omega
    subst this
    simp only [bitRev, pow_zero, mul_one, Nat.add_zero]
    have : e % 2 = e := Nat.mod_eq_of_lt he
    simp [this, Nat.div_eq_of_lt he]
  | succ b ih =>
    intro e r he hr
    have hre : e * 2 ^ (b + 1) + r = r + e * 2 ^ b * 2 := by ring
    have hmod : (r + e * 2 ^ b * 2) % 2 = r % 2 := Nat.add_mul_mod_self_right r _ 2
    have hdiv : (r + e * 2 ^ b * 2) / 2 = r / 2 + e * 2 ^ b :=
      Nat.add_mul_div_right r _ (by norm_num)
    rw [hre, bitRev, hmod, hdiv, add_comm (r / 2) (e * 2 ^ b)]
    rw [ih e (r / 2) he (by
      have h2 : 2 ^ (b + 1) = 2 * 2 ^ b := by ring
      omega)]
    have hm : r % 2 * 2 ^ (b + 1) = 2 * (r % 2 * 2 ^ b) := by ring
    rw [hm, bitRev]
    ring

theorem bitRev_bitRev (b : ℕ) : ∀ i, i < 2 ^ b → bitRev b (bitRev b i) = i := by
  induction b with
  | zero => intro i hi; interval_cases i; rfl
  | succ b ih =>
    intro i hi
    have h1 : i % 2 < 2 := by omega
    have h2 : bitRev b (i / 2) < 2 ^ b := bitRev_lt b _
    have hsplit := bitRev_msb_split b (i % 2) (bitRev b (i / 2)) h1 h2
    have hq : i / 2 < 2 ^ b := by
      have : 2 ^ (b + 1) = 2 * 2 ^ b := by ring
      omega
    have hdef : bitRev (b + 1) i = i % 2 * 2 ^ b + bitRev b (i / 2) := rfl
    calc bitRev (b + 1) (bitRev (b + 1) i)
        = bitRev (b + 1) (i % 2 * 2 ^ b + bitRev b (i / 2)) := by rw [hdef]
      _ = 2 * bitRev b (bitRev b (i / 2)) + i % 2 := hsplit
      _ = 2 * (i / 2) + i % 2 := by rw [ih _ hq]
      _ = i := by omega

theorem bitRev_injOn {b i i' : ℕ} (hi : i < 2 ^ b) (hi' : i' < 2 ^ b)
    (h : bitRev b i = bitRev b i') : i = i' := by
  have := congrArg (bitRev b) h
  rwa [bitRev_bitRev b i hi, bitRev_bitRev b i' hi'] at this

-- ## The reverse-carry increment loop

theorem revIncAux_of_lt {j bit : ℕ} (h : j < bit) : revIncAux j bit = (j, bit) := by
  rw [revIncAux]
  have hb : bit ≠ 0 := by omega
  simp [hb, Nat.not_le.mpr h]

theorem revIncAux_of_ge {j bit : ℕ} (hb : bit ≠ 0) (h : bit ≤ j) :
    revIncAux j bit = revIncAux (j - bit) (bit / 2) := by
  rw [revIncAux]
  simp [hb, h]

theorem revInc_bitRev (c : ℕ) : ∀ i, i + 1 < 2 ^ (c + 1) →
    (revIncAux (bitRev (c + 1) i) (2 ^ c)).1 + (revIncAux (bitRev (c + 1) i) (2 ^ c)).2
      = bitRev (c + 1) (i + 1) := by
  induction c with
  | zero =>
    intro i hi
    have : i = 0 := by omega
    subst this
    rw [bitRev_zero, revIncAux_of_lt (by norm_num)]
    simp [bitRev]
  | succ c ih =>
    intro i hi
    have hdef : ∀ j : ℕ, bitRev (c + 2) j = j % 2 * 2 ^ (c + 1) + bitRev (c + 1) (j / 2) :=
      fun _ => rfl
    rcases Nat.even_or_odd i with he | ho
    · -- i even: top reversed bit clear, the while loop exits immediately
      obtain ⟨m, hm⟩ := he
      have hmod : i % 2 = 0 := by omega
      have hdiv : i / 2 = m := by omega
      have hr : bitRev (c + 1) m < 2 ^ (c + 1) := bitRev_lt _ _
      have hj : bitRev (c + 2) i = bitRev (c + 1) m := by
        rw [hdef i, hmod, hdiv]; ring
      have hmod1 : (i + 1) % 2 = 1 := by omega
      have hdiv1 : (i + 1) / 2 = m := by omega
      have htgt : bitRev (c + 2) (i + 1) = 2 ^ (c + 1) + bitRev (c + 1) m := by
        rw [hdef (i + 1), hmod1, hdiv1]; ring
      rw [hj, revIncAux_of_lt hr, htgt]
      ring
    · -- i odd: clear the top reversed bit and recurse one level down
      obtain ⟨m, hm⟩ := ho
      have hmod : i % 2 = 1 := by omega
      have hdiv : i / 2 = m := by omega
      have hj : bitRev (c + 2) i = 2 ^ (c + 1) + bitRev (c + 1) m := by
        rw [hdef i, hmod, hdiv]; ring
      have hge : 2 ^ (c + 1) ≤ bitRev (c + 2) i := by rw [hj]; omega
      rw [revIncAux_of_ge (by positivity) hge]
      have hsub : bitRev (c + 2) i - 2 ^ (c + 1) = bitRev (c + 1) m := by omega
      have hhalf : 2 ^ (c + 1) / 2 = 2 ^ c := by
        rw [pow_succ]
        omega
      rw [hsub, hhalf]
      have hm1 : m + 1 < 2 ^ (c + 1) := by
        have h2 : 2 ^ (c + 2) = 2 * 2 ^ (c + 1) := by ring
        omega
      rw [ih m hm1]
      have hmod1 : (i + 1) % 2 = 0 := by omega
      have hdiv1 : (i + 1) / 2 = m + 1 := by omega
      rw [hdef (i + 1), hmod1, hdiv1]
      ring

theorem swapFn_apply (a : ℕ → ℂ) (i j p : ℕ) :
    swapFn a i j p = if p = j then a i else if p = i then a j else a p := by
  simp only [swapFn, Function.update_apply]

theorem bitRev_pos {b p : ℕ} (hp1 : 1 ≤ p) (hpn : p < 2 ^ b) : 1 ≤ bitRev b p := by
  by_contra h
  have h0 : bitRev b p = 0 := by omega
  have := bitRev_injOn hpn (pow_pos (by norm_num : (0:ℕ) < 2) b)
    (by rw [h0, bitRev_zero])
  omega

theorem bitrevLoop_aux (c : ℕ) (a : ℕ → ℂ) :
    ∀ m, m ≤ 2 ^ (c + 1) - 1 →
      ((List.range' 1 m).foldl (bitrevStep (2 ^ (c + 1))) (0, a)).1 = bitRev (c + 1) m ∧
      ∀ p, ((List.range' 1 m).foldl (bitrevStep (2 ^ (c + 1))) (0, a)).2 p =
        if p < 2 ^ (c + 1) ∧
            ((1 ≤ p ∧ p ≤ m) ∨ (1 ≤ bitRev (c + 1) p ∧ bitRev (c + 1) p ≤ m)) then
          a (bitRev (c + 1) p)
        else a p := by
  intro m
  induction m with
  | zero =>
    intro _
    refine ⟨(bitRev_zero (c + 1)).symm, fun p => ?_⟩
    rw [if_neg (by omega)]
    rfl
  | succ m ih =>
    intro hm
    obtain ⟨ihj, iharr⟩ := ih (by omega)
    rw [List.range'_1_concat, List.foldl_append, List.foldl_cons, List.foldl_nil]
    set s := (List.range' 1 m).foldl (bitrevStep (2 ^ (c + 1))) (0, a) with hs
    have hshift : 2 ^ (c + 1) >>> 1 = 2 ^ c := by
      rw [Nat.shiftRight_one, pow_succ]
      omega
    have hm1 : m + 1 < 2 ^ (c + 1) := by omega
    have hjnew : (revIncAux s.1 (2 ^ (c + 1) >>> 1)).1 + (revIncAux s.1 (2 ^ (c + 1) >>> 1)).2
        = bitRev (c + 1) (m + 1) := by
      rw [hshift, ihj]
      exact revInc_bitRev c m hm1
    have hrn : bitRev (c + 1) (m + 1) < 2 ^ (c + 1) := bitRev_lt _ _
    have hrinv : bitRev (c + 1) (bitRev (c + 1) (m + 1)) = m + 1 :=
      bitRev_bitRev (c + 1) (m + 1) hm1
    have hr1 : 1 ≤ bitRev (c + 1) (m + 1) := bitRev_pos (by omega) hm1
    have h1m : 1 + m = m + 1 := by omega
    constructor
    · simp only [bitrevStep, hjnew]
    · intro p
      simp only [bitrevStep, hjnew, h1m]
      by_cases hswap : m + 1 < bitRev (c + 1) (m + 1)
      · -- i = m + 1 < j : swap positions m+1 and bitRev (m+1)
        rw [if_pos hswap, swapFn_apply]
        by_cases hpr : p = bitRev (c + 1) (m + 1)
        · subst hpr
          rw [if_pos rfl, iharr (m + 1), if_neg (by omega),
            if_pos ⟨hrn, Or.inr (by omega)⟩, hrinv]
        · rw [if_neg hpr]
          by_cases hpm : p = m + 1
          · subst hpm
            rw [if_pos rfl, iharr (bitRev (c + 1) (m + 1))]
            rw [if_neg (by omega), if_pos ⟨hm1, Or.inl (by omega)⟩]
          · rw [if_neg hpm, iharr p]
            by_cases hpn : p < 2 ^ (c + 1)
            · have hrevne : bitRev (c + 1) p ≠ m + 1 := by
                intro hrev
                exact hpr (by rw [← hrev, bitRev_bitRev (c + 1) p hpn])
              by_cases hcond : (1 ≤ p ∧ p ≤ m) ∨
                  (1 ≤ bitRev (c + 1) p ∧ bitRev (c + 1) p ≤ m)
              · rw [if_pos ⟨hpn, hcond⟩, if_pos ⟨hpn, by omega⟩]
              · rw [if_neg (by omega), if_neg (by omega)]
            · rw [if_neg (by omega), if_neg (by omega)]
      · -- no swap: the pair {m+1, bitRev (m+1)} is already in place
        rw [if_neg hswap, iharr p]
        by_cases hpn : p < 2 ^ (c + 1)
        · by_cases hpm : p = m + 1
          · subst hpm
            by_cases hfix : bitRev (c + 1) (m + 1) = m + 1
            · rw [if_neg (by omega), if_pos ⟨hm1, Or.inl (by omega)⟩, hfix]
            · rw [if_pos ⟨hm1, Or.inr (by omega)⟩, if_pos ⟨hm1, Or.inl (by omega)⟩]
          · by_cases hprev : bitRev (c + 1) p = m + 1
            · have hpeq : p = bitRev (c + 1) (m + 1) := by
                rw [← hprev, bitRev_bitRev (c + 1) p hpn]
              rw [if_pos ⟨hpn, Or.inl ⟨by omega, by omega⟩⟩,
                if_pos ⟨hpn, Or.inl ⟨by omega, by omega⟩⟩]
            · by_cases hcond : (1 ≤ p ∧ p ≤ m) ∨
                  (1 ≤ bitRev (c + 1) p ∧ bitRev (c + 1) p ≤ m)
              · rw [if_pos ⟨hpn, hcond⟩, if_pos ⟨hpn, by omega⟩]
              · rw [if_neg (by omega), if_neg (by omega)]
        · rw [if_neg (by omega), if_neg (by omega)]

theorem bitrevLoop_spec (c : ℕ) (a : ℕ → ℂ) (p : ℕ) (hp : p < 2 ^ (c + 1)) :
    (bitrevLoop (2 ^ (c + 1)) a).2 p = a (bitRev (c + 1) p) := by
  have h := (bitrevLoop_aux c a (2 ^ (c + 1) - 1) le_rfl).2 p
  unfold bitrevLoop
  rw [h]
  by_cases hp0 : p = 0
  · subst hp0
    have hb0 : bitRev (c + 1) 0 = 0 := bitRev_zero _
    rw [if_neg (by omega), hb0]
  · rw [if_pos ⟨hp, Or.inl ⟨by omega, by omega⟩⟩]

-- ## Twiddle factor algebra

theorem tw_zero (L : ℕ) : tw L 0 = 1 := by
  simp [tw]

theorem tw_add (L a b : ℕ) : tw L (a + b) = tw L a * tw L b := by
  rw [tw, tw, tw, ← Complex.exp_add]
  push_cast
  ring_nf

theorem tw_period_mul (L k m : ℕ) (hL : L ≠ 0) : tw L (k + L * m) = tw L k := by
  rw [tw, tw]
  have hLc : (L : ℂ) ≠ 0 := Nat.cast_ne_zero.mpr hL
  have : (-(2 * (Real.pi : ℂ) * Complex.I) * ↑(k + L * m) / L) =
      -(2 * (Real.pi : ℂ) * Complex.I) * k / L + (-m : ℤ) * (2 * (Real.pi : ℂ) * Complex.I) := by
    push_cast
    field_simp
    ring
  rw [this, Complex.exp_add, Complex.exp_int_mul_two_pi_mul_I, mul_one]

theorem tw_double (h k : ℕ) (hh : h ≠ 0) : tw (2 * h) (2 * k) = tw h k := by
  rw [tw, tw]
  have hhc : (h : ℂ) ≠ 0 := Nat.cast_ne_zero.mpr hh
  congr 1
  push_cast
  field_simp
  ring

theorem tw_half_neg (h k : ℕ) (hh : h ≠ 0) : tw (2 * h) (h + k) = - tw (2 * h) k := by
  rw [tw_add]
  have hhc : (h : ℂ) ≠ 0 := Nat.cast_ne_zero.mpr hh
  have h1 : tw (2 * h) h = -1 := by
    rw [tw]
    have e : (-(2 * (Real.pi : ℂ) * Complex.I) * (h : ℂ) / ((2 * h : ℕ) : ℂ))
        = -(Real.pi * Complex.I) := by
      push_cast
      field_simp
      ring
    rw [e, Complex.exp_neg, Complex.exp_pi_mul_I]
    norm_num
  rw [h1]
  ring

theorem sum_range_even_odd (f : ℕ → ℂ) (m : ℕ) :
    ∑ s ∈ Finset.range (2 * m), f s =
      (∑ r ∈ Finset.range m, f (2 * r)) + ∑ r ∈ Finset.range m, f (2 * r + 1) := by
  induction m with
  | zero => simp
  | succ m ih =>
    have h2 : 2 * (m + 1) = 2 * m + 1 + 1 := by ring
    rw [h2, Finset.sum_range_succ, Finset.sum_range_succ, Finset.sum_range_succ,
      Finset.sum_range_succ, ih]
    ring

-- ## The butterfly stages

theorem stageBlock_aux (l i : ℕ) (a : ℕ → ℂ) :
    ∀ m, m ≤ 2 ^ l → ∀ p,
      ((List.range m).foldl (fun b j => butterflyStep (2 ^ (l + 1)) b (i + j) j) a) p =
        if i ≤ p ∧ p < i + m then a p + tw (2 ^ (l + 1)) (p - i) * a (p + 2 ^ l)
        else if i + 2 ^ l ≤ p ∧ p < i + 2 ^ l + m then
          a (p - 2 ^ l) - tw (2 ^ (l + 1)) (p - i - 2 ^ l) * a p
        else a p := by
  have hhalf : 2 ^ (l + 1) / 2 = 2 ^ l := by
    rw [pow_succ]
    omega
  have hl1 : 1 ≤ 2 ^ l := Nat.one_le_two_pow
  intro m
  induction m with
  | zero =>
    intro _ p
    rw [if_neg (by omega), if_neg (by omega)]
    rfl
  | succ m ih =>
    intro hm p
    rw [List.range_succ, List.foldl_append, List.foldl_cons, List.foldl_nil]
    set b := (List.range m).foldl (fun b j => butterflyStep (2 ^ (l + 1)) b (i + j) j) a
      with hb
    have hbu : b (i + m) = a (i + m) := by
      rw [ih (by omega) (i + m), if_neg (by omega), if_neg (by omega)]
    have hbv : b (i + m + 2 ^ l) = a (i + m + 2 ^ l) := by
      rw [ih (by omega) (i + m + 2 ^ l), if_neg (by omega), if_neg (by omega)]
    simp only [butterflyStep, hhalf, Function.update_apply, hbu, hbv]
    by_cases hp2 : p = i + m + 2 ^ l
    · rw [if_pos (by omega), if_neg (by omega), if_pos (by omega)]
      have e1 : p - 2 ^ l = i + m := by omega
      have e2 : p - i - 2 ^ l = m := by omega
      rw [e1, e2, hp2]
    · rw [if_neg (by omega)]
      by_cases hp1 : p = i + m
      · rw [if_pos (by omega), if_pos (by omega)]
        have e1 : p - i = m := by omega
        have e2 : p + 2 ^ l = i + m + 2 ^ l := by omega
        rw [e1, e2, hp1]
      · rw [if_neg (by omega), ih (by omega) p]
        by_cases hc1 : i ≤ p ∧ p < i + m
        · rw [if_pos hc1, if_pos (by omega)]
        · rw [if_neg hc1]
          by_cases hc2 : i + 2 ^ l ≤ p ∧ p < i + 2 ^ l + m
          · rw [if_pos hc2, if_neg (by omega), if_pos (by omega)]
          · rw [if_neg hc2, if_neg (by omega), if_neg (by omega)]

theorem stageBlock_apply (l i : ℕ) (a : ℕ → ℂ) (p : ℕ) :
    stageBlock (2 ^ (l + 1)) i a p =
      if i ≤ p ∧ p < i + 2 ^ l then a p + tw (2 ^ (l + 1)) (p - i) * a (p + 2 ^ l)
      else if i + 2 ^ l ≤ p ∧ p < i + 2 ^ l + 2 ^ l then
        a (p - 2 ^ l) - tw (2 ^ (l + 1)) (p - i - 2 ^ l) * a p
      else a p := by
  have hhalf : 2 ^ (l + 1) / 2 = 2 ^ l := by
    rw [pow_succ]
    omega
  rw [stageBlock, hhalf]
  exact stageBlock_aux l i a (2 ^ l) le_rfl p

theorem stageBlock_congr (l i : ℕ) (a a' : ℕ → ℂ)
    (h : ∀ q, i ≤ q → q < i + 2 ^ (l + 1) → a q = a' q) (p : ℕ)
    (hp1 : i ≤ p) (hp2 : p < i + 2 ^ (l + 1)) :
    stageBlock (2 ^ (l + 1)) i a p = stageBlock (2 ^ (l + 1)) i a' p := by
  have h2l : 2 ^ (l + 1) = 2 ^ l + 2 ^ l := by rw [pow_succ]; omega
  rw [stageBlock_apply, stageBlock_apply]
  by_cases hc1 : i ≤ p ∧ p < i + 2 ^ l
  · rw [if_pos hc1, if_pos hc1, h p hp1 hp2, h (p + 2 ^ l) (by omega) (by omega)]
  · rw [if_neg hc1, if_neg hc1, if_pos (by omega), if_pos (by omega),
      h (p - 2 ^ l) (by omega) (by omega), h p hp1 hp2]

theorem stageBlock_outside (l i : ℕ) (a : ℕ → ℂ) (p : ℕ)
    (h : p < i ∨ i + 2 ^ (l + 1) ≤ p) :
    stageBlock (2 ^ (l + 1)) i a p = a p := by
  have h2l : 2 ^ (l + 1) = 2 ^ l + 2 ^ l := by rw [pow_succ]; omega
  rw [stageBlock_apply, if_neg (by omega), if_neg (by omega)]

theorem stagePass_aux (l : ℕ) (a : ℕ → ℂ) :
    ∀ K p,
      (((List.range K).map (· * 2 ^ (l + 1))).foldl
          (fun b i => stageBlock (2 ^ (l + 1)) i b) a) p =
        if p < K * 2 ^ (l + 1) then
          stageBlock (2 ^ (l + 1)) (p / 2 ^ (l + 1) * 2 ^ (l + 1)) a p
        else a p := by
  have hL1 : 1 ≤ 2 ^ (l + 1) := Nat.one_le_two_pow
  intro K
  induction K with
  | zero =>
    intro p
    rw [if_neg (by omega)]
    rfl
  | succ K ih =>
    intro p
    rw [List.range_succ, List.map_append, List.foldl_append]
    simp only [List.map_cons, List.map_nil, List.foldl_cons, List.foldl_nil]
    set b := ((List.range K).map (· * 2 ^ (l + 1))).foldl
      (fun b i => stageBlock (2 ^ (l + 1)) i b) a with hb
    have hexp : (K + 1) * 2 ^ (l + 1) = K * 2 ^ (l + 1) + 2 ^ (l + 1) := by ring
    by_cases hlo : p < K * 2 ^ (l + 1)
    · rw [stageBlock_outside l _ b p (Or.inl hlo), ih p, if_pos hlo,
        if_pos (by omega)]
    · by_cases hmid : p < (K + 1) * 2 ^ (l + 1)
      · have hKL : K * 2 ^ (l + 1) ≤ p := by omega
        have hcong : stageBlock (2 ^ (l + 1)) (K * 2 ^ (l + 1)) b p
            = stageBlock (2 ^ (l + 1)) (K * 2 ^ (l + 1)) a p := by
          refine stageBlock_congr l _ b a (fun q hq1 hq2 => ?_) p hKL (by omega)
          rw [ih q, if_neg (by omega)]
        rw [hcong, if_pos hmid]
        have hdivp : p / 2 ^ (l + 1) = K :=
          Nat.div_eq_of_lt_le hKL (by omega)
        rw [hdivp]
      · have hout : (K + 1) * 2 ^ (l + 1) ≤ p := by omega
        rw [stageBlock_outside l _ b p (Or.inr (by omega)), ih p,
          if_neg (by omega), if_neg (by omega)]

theorem stagePass_apply (l n : ℕ) (hdvd : 2 ^ (l + 1) ∣ n) (a : ℕ → ℂ) (p : ℕ) :
    stagePass n (2 ^ (l + 1)) a p =
      if p < n then stageBlock (2 ^ (l + 1)) (p / 2 ^ (l + 1) * 2 ^ (l + 1)) a p
      else a p := by
  have hL1 : 0 < 2 ^ (l + 1) := Nat.pos_pow_of_pos _ (by norm_num)
  obtain ⟨q, hq⟩ := hdvd
  have hceil : (n + 2 ^ (l + 1) - 1) / 2 ^ (l + 1) = q := by
    subst hq
    have h1 : 2 ^ (l + 1) * q + 2 ^ (l + 1) - 1 = 2 ^ (l + 1) * q + (2 ^ (l + 1) - 1) := by
      omega
    rw [h1, Nat.mul_add_div hL1, Nat.div_eq_of_lt (by omega), Nat.add_zero]
  rw [stagePass, hceil, stagePass_aux l a q p, hq, mul_comm]

theorem bitRev_even (k r : ℕ) : bitRev (k + 1) (2 * r) = bitRev k r := by
  have h1 : (2 * r) % 2 = 0 := by omega
  have h2 : (2 * r) / 2 = r := by omega
  rw [bitRev, h1, h2]
  ring

theorem bitRev_odd (k r : ℕ) : bitRev (k + 1) (2 * r + 1) = 2 ^ k + bitRev k r := by
  have h1 : (2 * r + 1) % 2 = 1 := by omega
  have h2 : (2 * r + 1) / 2 = r := by omega
  rw [bitRev, h1, h2]
  ring

theorem fftStages_aux (bits : ℕ) (y : ℕ → ℂ) :
    ∀ k, k ≤ bits → ∀ p, p < 2 ^ bits →
      ((List.range k).foldl (fun b m => stagePass (2 ^ bits) (2 ^ (m + 1)) b) y) p =
        ∑ s ∈ Finset.range (2 ^ k),
          y (p / 2 ^ k * 2 ^ k + bitRev k s) * tw (2 ^ k) (p % 2 ^ k * s) := by
  intro k
  induction k with
  | zero =>
    intro _ p hp
    simp [Finset.sum_range_one, bitRev, tw_zero, Nat.mod_one]
  | succ k ih =>
    intro hk p hp
    rw [List.range_succ, List.foldl_append, List.foldl_cons, List.foldl_nil]
    have hdvd : 2 ^ (k + 1) ∣ 2 ^ bits := pow_dvd_pow 2 hk
    rw [stagePass_apply k (2 ^ bits) hdvd _ p, if_pos hp, stageBlock_apply]
    have hH0 : 0 < 2 ^ k := Nat.pos_pow_of_pos _ (by norm_num)
    have hpow : (2:ℕ) ^ (k + 1) = 2 * 2 ^ k := by ring
    set H := 2 ^ k with hH
    set B := p / (2 ^ (k + 1)) with hB
    have hp' : 2 ^ (k + 1) * B + p % 2 ^ (k + 1) = p := Nat.div_add_mod p _
    have hmodL : p % 2 ^ (k + 1) < 2 ^ (k + 1) := Nat.mod_lt _ (by positivity)
    have hL2H : (2:ℕ) ^ (k + 1) = 2 * H := hpow
    obtain ⟨Q, hQ⟩ := hdvd
    have hBQ : B < Q := by
      by_contra hc
      push_neg at hc
      have := Nat.mul_le_mul_left (2 ^ (k + 1)) hc
      omega
    have hblock : 2 ^ (k + 1) * (B + 1) ≤ 2 ^ bits := by
      have h1 := Nat.mul_le_mul_left (2 ^ (k + 1)) hBQ
      have h2 : 2 ^ (k + 1) * (B + 1) = 2 ^ (k + 1) * B + 2 ^ (k + 1) := by ring
      have h3 : 2 ^ (k + 1) * (B + 1) ≤ 2 ^ (k + 1) * Q := Nat.mul_le_mul_left _ hBQ
      omega
    have hBL : B * 2 ^ (k + 1) = 2 ^ (k + 1) * B := mul_comm _ _
    by_cases hcase : p % 2 ^ (k + 1) < H
    · -- lower half of the block: butterfly u + w * v
      rw [if_pos (by omega)]
      have hpe : p = H * (2 * B) + p % 2 ^ (k + 1) := by
        have h1 : 2 * H * B = H * (2 * B) := by ring
        have h2 : 2 ^ (k + 1) * B = 2 * H * B := by rw [hL2H]
        omega
      have hdivH : p / H = 2 * B := by
        conv_lhs => rw [hpe]
        rw [Nat.mul_add_div hH0, Nat.div_eq_of_lt hcase, add_zero]
      have hmodH : p % H = p % 2 ^ (k + 1) := by
        conv_lhs => rw [hpe]
        rw [Nat.mul_add_mod, Nat.mod_eq_of_lt hcase]
      have hpe' : p + H = H * (2 * B + 1) + p % 2 ^ (k + 1) := by
        have h4 : H * (2 * B + 1) = H * (2 * B) + H := by ring
        omega
      have hdivH' : (p + H) / H = 2 * B + 1 := by
        conv_lhs => rw [hpe']
        rw [Nat.mul_add_div hH0, Nat.div_eq_of_lt hcase, add_zero]
      have hmodH' : (p + H) % H = p % 2 ^ (k + 1) := by
        conv_lhs => rw [hpe']
        rw [Nat.mul_add_mod, Nat.mod_eq_of_lt hcase]
      have hpHlt : p + H < 2 ^ bits := by
        have h5 : 2 ^ (k + 1) * (B + 1) = 2 ^ (k + 1) * B + 2 ^ (k + 1) := by ring
        omega
      have hsub : p - B * 2 ^ (k + 1) = p % 2 ^ (k + 1) := by omega
      rw [ih (by omega) p hp, ih (by omega) (p + H) hpHlt, hdivH, hmodH, hdivH', hmodH',
        hsub]
      rw [show (2:ℕ) ^ (k + 1) = 2 * H from hL2H, sum_range_even_odd]
      have heven : ∀ r ∈ Finset.range H,
          y (B * (2 * H) + bitRev (k + 1) (2 * r)) * tw (2 * H) (p % (2 * H) * (2 * r))
            = y (2 * B * H + bitRev k r) * tw H (p % (2 * H) * r) := by
        intro r _
        rw [bitRev_even, show p % (2 * H) * (2 * r) = 2 * (p % (2 * H) * r) by ring,
          tw_double _ _ (by omega), show B * (2 * H) = 2 * B * H by ring]
      have hodd : ∀ r ∈ Finset.range H,
          y (B * (2 * H) + bitRev (k + 1) (2 * r + 1)) * tw (2 * H) (p % (2 * H) * (2 * r + 1))
            = tw (2 * H) (p % (2 * H)) *
              (y ((2 * B + 1) * H + bitRev k r) * tw H (p % (2 * H) * r)) := by
        intro r _
        rw [bitRev_odd, show p % (2 * H) * (2 * r + 1) = 2 * (p % (2 * H) * r) + p % (2 * H)
            by ring, tw_add, tw_double _ _ (by omega),
          show B * (2 * H) + (2 ^ k + bitRev k r) = (2 * B + 1) * H + bitRev k r by
            rw [← hH]; ring]
        ring
      rw [Finset.sum_congr rfl heven, Finset.sum_congr rfl hodd, ← Finset.mul_sum]
    · -- upper half of the block: butterfly u - w * v
      rw [if_neg (by omega), if_pos (by omega)]
      have hr' : p % 2 ^ (k + 1) - H < H := by omega
      have hpe : p = H * (2 * B + 1) + (p % 2 ^ (k + 1) - H) := by
        have h1 : 2 * H * B = H * (2 * B) := by ring
        have h2 : 2 ^ (k + 1) * B = 2 * H * B := by rw [hL2H]
        have h3 : H * (2 * B + 1) = H * (2 * B) + H := by ring
        omega
      have hdivH : p / H = 2 * B + 1 := by
        conv_lhs => rw [hpe]
        rw [Nat.mul_add_div hH0, Nat.div_eq_of_lt hr', add_zero]
      have hmodH : p % H = p % 2 ^ (k + 1) - H := by
        conv_lhs => rw [hpe]
        rw [Nat.mul_add_mod, Nat.mod_eq_of_lt hr']
      have hpe' : p - H = H * (2 * B) + (p % 2 ^ (k + 1) - H) := by
        have h4 : H * (2 * B + 1) = H * (2 * B) + H := by ring
        omega
      have hdivH' : (p - H) / H = 2 * B := by
        conv_lhs => rw [hpe']
        rw [Nat.mul_add_div hH0, Nat.div_eq_of_lt hr', add_zero]
      have hmodH' : (p - H) % H = p % 2 ^ (k + 1) - H := by
        conv_lhs => rw [hpe']
        rw [Nat.mul_add_mod, Nat.mod_eq_of_lt hr']
      have hpHlt : p - H < 2 ^ bits := by omega
      have hsub : p - B * 2 ^ (k + 1) - H = p % 2 ^ (k + 1) - H := by omega
      rw [ih (by omega) p hp, ih (by omega) (p - H) hpHlt, hdivH, hmodH, hdivH', hmodH',
        hsub]
      rw [show (2:ℕ) ^ (k + 1) = 2 * H from hL2H, sum_range_even_odd]
      have hge : H ≤ p % (2 * H) := by
        have he : p % (2 * H) = p % 2 ^ (k + 1) := by rw [hL2H]
        omega
      obtain ⟨w, hw⟩ : ∃ w, p % (2 * H) = H + w := ⟨p % (2 * H) - H, by omega⟩
      have hwm : p % (2 * H) - H = w := by omega
      rw [hwm, hw]
      have heven : ∀ r ∈ Finset.range H,
          y (B * (2 * H) + bitRev (k + 1) (2 * r)) * tw (2 * H) ((H + w) * (2 * r))
            = y (2 * B * H + bitRev k r) * tw H (w * r) := by
        intro r _
        rw [bitRev_even, show (H + w) * (2 * r) = 2 * ((H + w) * r) by ring,
          tw_double _ _ (by omega), show B * (2 * H) = 2 * B * H by ring,
          show (H + w) * r = w * r + H * r by ring, tw_period_mul H _ r (by omega)]
      have hodd : ∀ r ∈ Finset.range H,
          y (B * (2 * H) + bitRev (k + 1) (2 * r + 1)) * tw (2 * H) ((H + w) * (2 * r + 1))
            = (-tw (2 * H) w) *
              (y ((2 * B + 1) * H + bitRev k r) * tw H (w * r)) := by
        intro r _
        rw [bitRev_odd, show (H + w) * (2 * r + 1) = 2 * ((H + w) * r) + (H + w) by ring,
          tw_add, tw_double _ _ (by omega),
          show B * (2 * H) + (2 ^ k + bitRev k r) = (2 * B + 1) * H + bitRev k r by
            rw [← hH]; ring,
          show (H + w) * r = w * r + H * r by ring, tw_period_mul H _ r (by omega),
          tw_half_neg H w (by omega)]
        ring
      rw [Finset.sum_congr rfl heven, Finset.sum_congr rfl hodd, ← Finset.mul_sum]
      ring

-- ## `fft_iterative` computes the discrete Fourier transform

theorem getD_map_range (n t : ℕ) (f : ℕ → ℂ) (ht : t < n) :
    ((List.range n).map f).getD t 0 = f t := by
  rw [List.getD_eq_getElem?_getD, List.getElem?_map, List.getElem?_range ht]
  rfl

theorem getD_map_of_lt (l : List ℂ) (f : ℂ → ℂ) (t : ℕ) (ht : t < l.length) :
    (l.map f).getD t 0 = f (l.getD t 0) := by
  rw [List.getD_eq_getElem?_getD, List.getElem?_map, List.getElem?_eq_getElem ht,
    List.getD_eq_getElem l 0 ht]
  rfl

theorem getD_map_lt {α β : Type} (l : List α) (f : α → β) (d : β) (d' : α) (t : ℕ)
    (ht : t < l.length) : (l.map f).getD t d = f (l.getD t d') := by
  rw [List.getD_eq_getElem?_getD, List.getElem?_map, List.getElem?_eq_getElem ht,
    List.getD_eq_getElem l d' ht]
  rfl

theorem getD_map_ofReal (l : List ℝ) (t : ℕ) (ht : t < l.length) :
    (l.map Complex.ofReal).getD t 0 = ((l.getD t 0 : ℝ) : ℂ) :=
  getD_map_lt l _ 0 0 t ht

theorem fftIter_dft (bits : ℕ) (x : List ℂ) (hx : x.length = 2 ^ bits) (t : ℕ)
    (ht : t < 2 ^ bits) :
    (fftIter x).getD t 0 =
      ∑ s ∈ Finset.range (2 ^ bits), x.getD s 0 * tw (2 ^ bits) (t * s) := by
  have hlog : Nat.log 2 (2 ^ bits) = bits := Nat.log_pow (by norm_num) bits
  rw [fftIter, hx]
  rw [getD_map_range _ _ _ ht, fftStages, hlog]
  have hdiv : t / 2 ^ bits = 0 := Nat.div_eq_of_lt ht
  have hmod : t % 2 ^ bits = t := Nat.mod_eq_of_lt ht
  rw [fftStages_aux bits _ bits le_rfl t ht, hdiv, hmod]
  refine Finset.sum_congr rfl fun s hs => ?_
  have hs' : s < 2 ^ bits := Finset.mem_range.mp hs
  have hrev : bitRev bits s < 2 ^ bits := bitRev_lt _ _
  congr 1
  rw [Nat.zero_mul, Nat.zero_add]
  -- the permuted array evaluates, at a bit-reversed index, to the original entry
  cases bits with
  | zero =>
    have hs0 : s = 0 := by
      have := hs'
      simpa using this
    subst hs0
    rw [bitRev_zero]
    rfl
  | succ c =>
    rw [bitrevLoop_spec c _ (bitRev (c + 1) s) hrev,
      bitRev_bitRev (c + 1) s hs']

theorem fft_pow2_length (bits : ℕ) (x : List ℂ) (hx : x.length = 2 ^ bits) :
    (fft x).length = 2 ^ bits := by
  rw [fft_length, hx]
  by_cases hb : 2 ^ bits ≤ 1
  · rw [if_pos hb]
  · rw [if_neg hb, if_neg (by simp [land_pred_of_pow2 bits])]

theorem fft_dft (bits : ℕ) (x : List ℂ) (hx : x.length = 2 ^ bits) (t : ℕ)
    (ht : t < 2 ^ bits) :
    (fft x).getD t 0 =
      ∑ s ∈ Finset.range (2 ^ bits), x.getD s 0 * tw (2 ^ bits) (t * s) := by
  rw [fft]
  by_cases h1 : x.length ≤ 1
  · -- length 1 (bits = 0): the input is returned unchanged, and DFT of length 1 is the identity
    rw [if_pos h1]
    have hb0 : bits = 0 := by
      by_contra hb
      have : 2 ≤ 2 ^ bits := by
        calc 2 = 2 ^ 1 := by norm_num
        _ ≤ 2 ^ bits := Nat.pow_le_pow_right (by norm_num) (by omega)
      omega
    subst hb0
    have ht0 : t = 0 := by omega
    subst ht0
    simp [Finset.sum_range_one, tw_zero]
  · rw [if_neg h1]
    have hland : ¬ (x.length &&& (x.length - 1) ≠ 0) := by
      rw [hx]
      simp [land_pred_of_pow2 bits]
    rw [if_neg hland]
    exact fftIter_dft bits x hx t ht

-- ## Orthogonality of the twiddle factors and Fourier inversion

theorem conj_tw (N k : ℕ) :
    (starRingEnd ℂ) (tw N k) = Complex.exp (2 * (Real.pi : ℂ) * Complex.I * k / N) := by
  rw [tw, ← Complex.exp_conj]
  congr 1
  simp only [map_div₀, map_mul, map_neg, Complex.conj_I, map_natCast, map_ofNat,
    Complex.conj_ofReal]
  ring

theorem sum_tw_orth (N : ℕ) (hN : 0 < N) (t u : ℕ) (ht : t < N) (hu : u < N) :
    ∑ s ∈ Finset.range N, tw N (s * u) * (starRingEnd ℂ) (tw N (t * s)) =
      if u = t then (N : ℂ) else 0 := by
  have hNc : (N : ℂ) ≠ 0 := Nat.cast_ne_zero.mpr (by omega)
  set d : ℤ := (t : ℤ) - (u : ℤ) with hd
  set z : ℂ := Complex.exp (2 * (Real.pi : ℂ) * Complex.I * d / N) with hz
  have hterm : ∀ s : ℕ, tw N (s * u) * (starRingEnd ℂ) (tw N (t * s)) = z ^ s := by
    intro s
    rw [conj_tw, tw, ← Complex.exp_add, hz, ← Complex.exp_nat_mul]
    congr 1
    push_cast [hd]
    field_simp
    ring
  rw [Finset.sum_congr rfl (fun s _ => hterm s)]
  by_cases heq : u = t
  · have hd0 : d = 0 := by omega
    have hz1 : z = 1 := by
      rw [hz, hd0]
      norm_num
    rw [if_pos heq]
    simp [hz1]
  · rw [if_neg heq]
    have hdne : d ≠ 0 := by omega
    have hzne : z ≠ 1 := by
      rw [hz]
      intro hc
      rw [Complex.exp_eq_one_iff] at hc
      obtain ⟨m, hm⟩ := hc
      have h2 : (2 * (Real.pi : ℂ) * Complex.I) * (d : ℂ)
          = (2 * (Real.pi : ℂ) * Complex.I) * ((m : ℂ) * N) := by
        field_simp at hm
        linear_combination hm
      have h3 : (d : ℂ) = (m : ℂ) * N := mul_left_cancel₀ Complex.two_pi_I_ne_zero h2
      have h4 : d = m * N := by exact_mod_cast h3
      have hNZ : (0 : ℤ) < (N : ℤ) := by exact_mod_cast hN
      rcases lt_trichotomy m 0 with hm0 | hm0 | hm0
      · have hm1 : m ≤ -1 := by omega
        have := mul_le_mul_of_nonneg_right hm1 (le_of_lt hNZ)
        rw [neg_one_mul] at this
        omega
      · subst hm0
        simp at h4
        omega
      · have hm1 : (1 : ℤ) ≤ m := by omega
        have := mul_le_mul_of_nonneg_right hm1 (le_of_lt hNZ)
        rw [one_mul] at this
        omega
    have hzN : z ^ N = 1 := by
      rw [hz, ← Complex.exp_nat_mul]
      have harg : (N : ℂ) * (2 * (Real.pi : ℂ) * Complex.I * d / N)
          = (d : ℤ) * (2 * (Real.pi : ℂ) * Complex.I) := by
        field_simp
        ring
      rw [harg, Complex.exp_int_mul_two_pi_mul_I]
    rw [geom_sum_eq hzne, hzN]
    simp

theorem roundtrip_core (bits : ℕ) (xr : List ℝ) (hx : xr.length = 2 ^ bits) (t : ℕ)
    (ht : t < 2 ^ bits) :
    (ifft (fft (xr.map Complex.ofReal))).getD t 0 = xr.getD t 0 := by
  have hN : 0 < 2 ^ bits := Nat.pos_pow_of_pos _ (by norm_num)
  have hNc : ((2 ^ bits : ℕ) : ℂ) ≠ 0 := Nat.cast_ne_zero.mpr (by omega)
  have hxc_len : (xr.map Complex.ofReal).length = 2 ^ bits := by
    rw [List.length_map, hx]
  set xc := xr.map Complex.ofReal with hxc
  set X := fft xc with hX
  have hX_len : X.length = 2 ^ bits := fft_pow2_length bits xc hxc_len
  have hlen2 : (X.map (starRingEnd ℂ)).length = 2 ^ bits := by
    rw [List.length_map, hX_len]
  have hfft2_len : (fft (X.map (starRingEnd ℂ))).length = 2 ^ bits :=
    fft_pow2_length bits _ hlen2
  simp only [ifft]
  rw [getD_map_lt _ _ 0 0 t (by rw [hfft2_len]; exact ht)]
  rw [fft_dft bits _ hlen2 t ht, hX_len]
  have hconj_entry : ∀ s, s < 2 ^ bits →
      (X.map (starRingEnd ℂ)).getD s 0 = (starRingEnd ℂ) (X.getD s 0) := fun s hs =>
    getD_map_lt X _ 0 0 s (by rw [hX_len]; exact hs)
  have hXs : ∀ s, s < 2 ^ bits →
      X.getD s 0 = ∑ u ∈ Finset.range (2 ^ bits), xc.getD u 0 * tw (2 ^ bits) (s * u) :=
    fun s hs => fft_dft bits xc hxc_len s hs
  have hstep1 : (starRingEnd ℂ)
      (∑ s ∈ Finset.range (2 ^ bits), (X.map (starRingEnd ℂ)).getD s 0 * tw (2 ^ bits) (t * s))
      = ∑ s ∈ Finset.range (2 ^ bits),
          (∑ u ∈ Finset.range (2 ^ bits), xc.getD u 0 * tw (2 ^ bits) (s * u)) *
            (starRingEnd ℂ) (tw (2 ^ bits) (t * s)) := by
    rw [map_sum]
    refine Finset.sum_congr rfl fun s hs => ?_
    rw [map_mul, hconj_entry s (Finset.mem_range.mp hs), Complex.conj_conj,
      hXs s (Finset.mem_range.mp hs)]
  rw [hstep1]
  have hswap : ∑ s ∈ Finset.range (2 ^ bits),
      (∑ u ∈ Finset.range (2 ^ bits), xc.getD u 0 * tw (2 ^ bits) (s * u)) *
        (starRingEnd ℂ) (tw (2 ^ bits) (t * s))
      = ∑ u ∈ Finset.range (2 ^ bits), xc.getD u 0 *
          ∑ s ∈ Finset.range (2 ^ bits), tw (2 ^ bits) (s * u) *
            (starRingEnd ℂ) (tw (2 ^ bits) (t * s)) := by
    calc ∑ s ∈ Finset.range (2 ^ bits),
            (∑ u ∈ Finset.range (2 ^ bits), xc.getD u 0 * tw (2 ^ bits) (s * u)) *
              (starRingEnd ℂ) (tw (2 ^ bits) (t * s))
        = ∑ s ∈ Finset.range (2 ^ bits), ∑ u ∈ Finset.range (2 ^ bits),
            xc.getD u 0 * tw (2 ^ bits) (s * u) * (starRingEnd ℂ) (tw (2 ^ bits) (t * s)) := by
          refine Finset.sum_congr rfl fun s _ => ?_
          rw [Finset.sum_mul]
      _ = ∑ u ∈ Finset.range (2 ^ bits), ∑ s ∈ Finset.range (2 ^ bits),
            xc.getD u 0 * tw (2 ^ bits) (s * u) * (starRingEnd ℂ) (tw (2 ^ bits) (t * s)) :=
          Finset.sum_comm
      _ = ∑ u ∈ Finset.range (2 ^ bits), xc.getD u 0 *
            ∑ s ∈ Finset.range (2 ^ bits), tw (2 ^ bits) (s * u) *
              (starRingEnd ℂ) (tw (2 ^ bits) (t * s)) := by
          refine Finset.sum_congr rfl fun u _ => ?_
          rw [Finset.mul_sum]
          refine Finset.sum_congr rfl fun s _ => ?_
          ring
  rw [hswap]
  have horth : ∀ u ∈ Finset.range (2 ^ bits),
      xc.getD u 0 * (∑ s ∈ Finset.range (2 ^ bits), tw (2 ^ bits) (s * u) *
          (starRingEnd ℂ) (tw (2 ^ bits) (t * s)))
        = if u = t then xc.getD u 0 * ((2 ^ bits : ℕ) : ℂ) else 0 := by
    intro u hu
    rw [sum_tw_orth (2 ^ bits) hN t u ht (Finset.mem_range.mp hu)]
    by_cases h : u = t
    · rw [if_pos h, if_pos h]
    · rw [if_neg h, if_neg h, mul_zero]
  rw [Finset.sum_congr rfl horth, Finset.sum_ite_eq' (Finset.range (2 ^ bits)) t
    (fun u => xc.getD u 0 * ((2 ^ bits : ℕ) : ℂ)), if_pos (Finset.mem_range.mpr ht)]
  rw [mul_div_cancel_right₀ _ hNc]
  rw [hxc, getD_map_ofReal xr t (by rw [hx]; exact ht)]
  exact Complex.ofReal_re _

-- ## Round-trip glue

theorem list_ext_getD (l1 l2 : List ℝ) (hlen : l1.length = l2.length)
    (h : ∀ t, t < l1.length → l1.getD t 0 = l2.getD t 0) : l1 = l2 := by
  refine List.ext_getElem hlen fun i h1 h2 => ?_
  have hi := h i h1
  rwa [List.getD_eq_getElem l1 0 h1, List.getD_eq_getElem l2 0 h2] at hi

theorem getD_take_of_lt (l : List ℝ) (n t : ℕ) (h : t < n) :
    (l.take n).getD t 0 = l.getD t 0 := by
  rw [List.getD_eq_getElem?_getD, List.getD_eq_getElem?_getD, List.getElem?_take, if_pos h]

theorem getD_append_left (l1 l2 : List ℝ) (t : ℕ) (h : t < l1.length) :
    (l1 ++ l2).getD t 0 = l1.getD t 0 := by
  rw [List.getD_append _ _ _ _ h]

theorem truncPad_getD (n : ℕ) (l : List ℝ) (t : ℕ) (ht : t < n) (htl : t < l.length) :
    (truncPad n l).getD t 0 = l.getD t 0 := by
  rw [truncPad, getD_append_left _ _ t (by
    rw [List.length_take]
    omega), getD_take_of_lt l n t ht]

theorem truncPad_of_length (l : List ℝ) : truncPad l.length l = l := by
  rw [truncPad, Nat.sub_self, List.replicate_zero, List.append_nil, List.take_length]

theorem fft_pad (x : List ℂ) (h2 : ¬ x.length ≤ 1) (hnp : x.length &&& (x.length - 1) ≠ 0) :
    fft x = fft (x ++ List.replicate (2 ^ Nat.clog 2 x.length - x.length) 0) := by
  have hle : x.length ≤ 2 ^ Nat.clog 2 x.length := Nat.le_pow_clog one_lt_two _
  have hplen : (x ++ List.replicate (2 ^ Nat.clog 2 x.length - x.length) 0).length
      = 2 ^ Nat.clog 2 x.length := by
    rw [List.length_append, List.length_replicate]
    omega
  conv_lhs => rw [fft]
  rw [if_neg h2, if_pos hnp]
  conv_rhs => rw [fft]
  rw [hplen]
  have h1' : ¬ 2 ^ Nat.clog 2 x.length ≤ 1 := by
    intro hcon
    have : 2 ≤ 2 ^ Nat.clog 2 x.length := by omega
    omega
  rw [if_neg h1', if_neg (by simp [land_pred_of_pow2])]

/-- C1: for every real-valued input signal `x` of length `n`, running
`FFTProcessor.ifft` on `FFTProcessor.fft x` and truncating or padding the
result to length `n` yields exactly `x` (the exact-arithmetic model of
"within a small floating tolerance"). -/
theorem C1_fft_ifft_roundtrip (x : List ℝ) :
    truncPad x.length (ifft (fftR x)) = x := by
  rcases Nat.eq_zero_or_pos x.length with h0 | hpos
  · -- empty signal
    have hx : x = [] := List.length_eq_zero.mp h0
    subst hx
    rfl
  · rw [fftR]
    by_cases hpow : x.length &&& (x.length - 1) = 0
    · -- power-of-two length (this includes length 1): no padding happens
      obtain ⟨bits, hbits⟩ := pow2_of_land_pred hpos hpow
      have hXlen : (fft (x.map Complex.ofReal)).length = 2 ^ bits :=
        fft_pow2_length bits _ (by rw [List.length_map]; exact hbits)
      have hifft_len : (ifft (fft (x.map Complex.ofReal))).length = x.length := by
        rw [ifft_length, fft_pow2_length bits _ (by rw [List.length_map]; exact hXlen)]
        omega
      refine list_ext_getD _ _ (by rw [truncPad_length]) fun t ht => ?_
      rw [truncPad_length] at ht
      rw [truncPad_getD _ _ t ht (by omega), roundtrip_core bits x hbits t (by omega)]
    · -- non-power-of-two length: the transform pads, the truncation recovers x
      by_cases h1 : x.length ≤ 1
      · -- length 1 has n & (n-1) = 0, contradiction with hpow
        exfalso
        have hx1 : x.length = 1 := by omega
        rw [hx1] at hpow
        exact hpow rfl
      · have hmaplen : (x.map Complex.ofReal).length = x.length := List.length_map _ _
        rw [show fft (x.map Complex.ofReal) = fft ((x.map Complex.ofReal) ++
            List.replicate (2 ^ Nat.clog 2 x.length - x.length) 0) from (by
          rw [fft_pad _ (by rw [hmaplen]; exact h1) (by rw [hmaplen]; exact hpow), hmaplen])]
        have hpad : (x.map Complex.ofReal) ++
            List.replicate (2 ^ Nat.clog 2 x.length - x.length) 0
            = (x ++ List.replicate (2 ^ Nat.clog 2 x.length - x.length) 0).map
                Complex.ofReal := by
          rw [List.map_append, List.map_replicate]
          norm_num
        rw [hpad]
        have hle : x.length ≤ 2 ^ Nat.clog 2 x.length := Nat.le_pow_clog one_lt_two _
        have hxplen : (x ++ List.replicate (2 ^ Nat.clog 2 x.length - x.length) 0).length
            = 2 ^ Nat.clog 2 x.length := by
          rw [List.length_append, List.length_replicate]
          omega
        have hXlen : (fft ((x ++ List.replicate
            (2 ^ Nat.clog 2 x.length - x.length) 0).map Complex.ofReal)).length
            = 2 ^ Nat.clog 2 x.length :=
          fft_pow2_length (Nat.clog 2 x.length) _ (by rw [List.length_map]; exact hxplen)
        have hifft_len : (ifft (fft ((x ++ List.replicate
            (2 ^ Nat.clog 2 x.length - x.length) 0).map Complex.ofReal))).length
            = 2 ^ Nat.clog 2 x.length := by
          rw [ifft_length, fft_pow2_length (Nat.clog 2 x.length) _
            (by rw [List.length_map]; exact hXlen)]
        refine list_ext_getD _ _ (by rw [truncPad_length]) fun t ht => ?_
        rw [truncPad_length] at ht
        rw [truncPad_getD _ _ t ht (by omega),
          roundtrip_core (Nat.clog 2 x.length) _ hxplen t (by omega),
          getD_append_left _ _ t ht]

-- ## The equalizer and analyzer layer (`equalizer.py`, spectrum, spectrogram)

/-- A frequency band as consumed by `Equalizer.apply_equalizer`
(`band['low_freq']`, `band['high_freq']`, `band['scale']`). -/
structure Band where
  low_freq : ℝ
  high_freq : ℝ
  scale : ℝ

/-- `np.hanning(M)`: `0.5 - 0.5*cos(2*pi*k/(M-1))`; numpy returns `[]` for
`M = 0` and `[1.]` for `M = 1`. -/
def hanning (M : ℕ) : List ℝ :=
  if M = 0 then []
  else if M = 1 then [1]
  else (List.range M).map fun (k : ℕ) =>
    1 / 2 - 1 / 2 * Real.cos (2 * Real.pi * (k : ℝ) / ((M : ℝ) - 1))

/-- `np.hamming(M)`: `0.54 - 0.46*cos(2*pi*k/(M-1))` with the same degenerate
cases as `np.hanning`. -/
def hamming (M : ℕ) : List ℝ :=
  if M = 0 then []
  else if M = 1 then [1]
  else (List.range M).map fun (k : ℕ) =>
    0.54 - 0.46 * Real.cos (2 * Real.pi * (k : ℝ) / ((M : ℝ) - 1))

/-- The per-bin frequency computed by `apply_equalizer`:
`freqs = [(k * sample_rate) / n for k in range(n)]` followed by
`np.where(freqs > sample_rate/2, freqs - sample_rate, freqs)`. -/
def eqFreq (n : ℕ) (sr : ℝ) (k : ℕ) : ℝ :=
  if k * sr / n > sr / 2 then k * sr / n - sr else k * sr / n

/-- The combined positive/negative frequency masks of `apply_equalizer`
(`pos_mask` and `neg_mask` of one band). -/
def bandMask (sr : ℝ) (n : ℕ) (b : Band) (k : ℕ) : Prop :=
  (b.low_freq ≤ eqFreq n sr k ∧ eqFreq n sr k ≤ b.high_freq ∧ 0 ≤ eqFreq n sr k) ∨
  (eqFreq n sr k ≤ -b.low_freq ∧ -b.high_freq ≤ eqFreq n sr k ∧ eqFreq n sr k < 0)

instance (sr : ℝ) (n : ℕ) (b : Band) (k : ℕ) : Decidable (bandMask sr n b k) := by
  unfold bandMask
  infer_instance

/-- The running `bands_applied` counter of `apply_equalizer`: the number of
bands whose scale is not exactly `1.0` (the `if scale == 1.0: continue`
fast path skips the rest). -/
def countActive : List Band → ℕ
  | [] => 0
  | b :: bs => (if b.scale = 1 then 0 else 1) + countActive bs

/-- `np.mean` (which yields `0/0 = 0`-style junk on `[]`, matching numpy's
`nan` that is never compared successfully against anything). -/
def mean (l : List ℝ) : ℝ := l.sum / l.length

/-- `np.sqrt(np.mean(v**2))` — the RMS used for level reconciliation. -/
def rms (l : List ℝ) : ℝ := Real.sqrt (mean (l.map fun v => v ^ 2))

/-- `np.max(np.abs(v))` for a nonempty list (all entries of the mapped list
are nonnegative, so folding `max` from 0 agrees with numpy's reduction). -/
def maxAbs (l : List ℝ) : ℝ := (l.map fun v => |v|).foldr max 0

/-- The per-band gain loop of `apply_equalizer`
(`output_freq[pos_mask] = freq_domain[pos_mask] * scale` and the symmetric
negative-frequency write, reading from the unmodified `freq_domain`, with
the `if scale == 1.0: continue` fast path). -/
def eqScaleBins (sr : ℝ) (freqDomain : List ℂ) (bands : List Band) : List ℂ :=
  bands.foldl
    (fun of b =>
      if b.scale = 1 then of
      else (List.range freqDomain.length).map fun k =>
        if bandMask sr freqDomain.length b k then freqDomain.getD k 0 * (b.scale : ℂ)
        else of.getD k 0)
    freqDomain

/-- The windowing-compensation step `processed_signal / window` of
`apply_equalizer` (only for signals shorter than 2048).  `Except.error ()`
models numpy's broadcasting exception when the two arrays have different
lengths (the FFT zero-padded the signal).  Division by the window's zero
entries gives `inf`/`nan` in numpy and is then remapped to `0` by
`np.nan_to_num`, which coincides with Lean's `x / 0 = 0`. -/
def eqDivide (n : ℕ) (processed window : List ℝ) : Except Unit (List ℝ) :=
  if n < 2048 then
    if processed.length = window.length then
      Except.ok (List.zipWith (fun a w => a / w) processed window)
    else Except.error ()
  else Except.ok processed

/-- The RMS level-reconciliation step of `apply_equalizer`
(`if processed_rms > 0 and original_rms > 0: ... if 0.1 < level_ratio < 10`). -/
def eqLevel (signal trunc : List ℝ) : List ℝ :=
  if 0 < rms trunc ∧ 0 < rms signal ∧
      0.1 < rms signal / rms trunc ∧ rms signal / rms trunc < 10 then
    trunc.map fun v => v * (rms signal / rms trunc)
  else trunc

/-- The soft-limiting step of `apply_equalizer`
(`if max_val > 0.95: processed_signal = np.tanh(processed_signal*0.9)*0.95`).
`Except.error ()` models `np.max` raising on an empty array. -/
def eqLimit (leveled : List ℝ) : Except Unit (List ℝ) :=
  if leveled.length = 0 then Except.error ()
  else if 0.95 < maxAbs leveled then
    Except.ok (leveled.map fun v => Real.tanh (v * 0.9) * 0.95)
  else Except.ok leveled

/-- The `try:` body of `Equalizer.apply_equalizer`: window short signals,
transform with the custom `fft`, scale the masked bins of every non-unity
band, inverse-transform when any band applied, compensate the window,
truncate or pad to the original length, reconcile the RMS level and soft
limit. -/
def applyEqualizerE (signal : List ℝ) (bands : List Band) (sr : ℝ) :
    Except Unit (List ℝ) :=
  let n := signal.length
  let window := hanning n
  let windowed := if n < 2048 then List.zipWith (fun a w => a * w) signal window else signal
  let freqDomain := fft (windowed.map Complex.ofReal)
  let outputFreq := eqScaleBins sr freqDomain bands
  let processed := if 0 < countActive bands then ifft outputFreq else signal
  match eqDivide n processed window with
  | Except.error e => Except.error e
  | Except.ok d => eqLimit (eqLevel signal (truncPad n d))

/-- `Equalizer.apply_equalizer` with its `except:` handler: any internal
exception yields the unmodified original signal. -/
def applyEqualizer (signal : List ℝ) (bands : List Band) (sr : ℝ) : List ℝ :=
  match applyEqualizerE signal bands sr with
  | Except.ok r => r
  | Except.error _ => signal

/-- The parallel arrays returned by `FFTProcessor.compute_fft_spectrum`. -/
structure SpectrumResult where
  magnitude : List ℝ
  frequencies : List ℝ

/-- `signal[::step]`. -/
def decimate (step : ℕ) (l : List ℝ) : List ℝ :=
  (List.range ((l.length + step - 1) / step)).map fun i => l.getD (i * step) 0

/-- `FFTProcessor.compute_fft_spectrum`: optional decimation for display,
custom `fft`, magnitude `|X[k]|/n` over the first `n//2` bins, and the
positive-frequency filter `frequencies > 0` (`np.nan_to_num` is the identity
in exact arithmetic). -/
def computeFftSpectrum (signal : List ℝ) (sr : ℝ) : SpectrumResult :=
  let signal :=
    if 1024 < signal.length then decimate (max 1 (signal.length / 1024)) signal else signal
  if signal.length = 0 then ⟨[], []⟩
  else
    let F := fft (signal.map Complex.ofReal)
    let n := F.length
    let keep := (List.range (n / 2)).filter fun (k : ℕ) => decide (0 < (k : ℝ) * sr / n)
    ⟨keep.map fun (k : ℕ) => Complex.abs (F.getD k 0) / n,
     keep.map fun (k : ℕ) => (k : ℝ) * sr / n⟩

/-- `np.array(rows).T.tolist()` for a rectangular matrix. -/
def transposeRect (m : List (List ℝ)) : List (List ℝ) :=
  (List.range (m.headD []).length).map fun j => m.map fun row => row.getD j 0

/-- `FFTProcessor.compute_spectrogram`: STFT frames with a Hamming taper,
magnitudes of the first `window_size//2` bins in dB, collected per frame and
then transposed (`np.array(spectrogram).T`). -/
def computeSpectrogram (signal : List ℝ) (window_size hop_size : ℕ) :
    List (List ℝ) :=
  let n := signal.length
  if n = 0 then []
  else
    let nw : ℤ := 1 + Int.fdiv ((n : ℤ) - (window_size : ℤ)) (hop_size : ℤ)
    let num_windows : ℕ := if nw ≤ 0 then 1 else nw.toNat
    let signal := if nw ≤ 0 ∧ n < window_size
      then signal ++ List.replicate (window_size - n) 0 else signal
    let n := signal.length
    let frames := (List.range num_windows).map fun i =>
      let start := i * hop_size
      let window := if n < start + window_size
        then signal.drop start ++ List.replicate (start + window_size - n) 0
        else (signal.drop start).take window_size
      let tapered := List.zipWith (fun a w => a * w) window (hamming window.length)
      let F := fft (tapered.map Complex.ofReal)
      (F.take (window_size / 2)).map fun z => 20 * Real.logb 10 (Complex.abs z + 1e-12)
    transposeRect frames

/-- A band produced by `Equalizer.create_default_bands` (the human-readable
`label` string is omitted from the model; its numeric content is determined
by `low_freq` and `high_freq`). -/
structure DefaultBand where
  id : ℕ
  low_freq : ℝ
  high_freq : ℝ
  scale : ℝ
  center_freq : ℝ

/-- `np.logspace(log10(min_freq), log10(max_freq), num_bands + 1)`:
`num_bands + 1` logarithmically spaced edges. -/
def defaultBandEdges (numBands : ℕ) (minF maxF : ℝ) : List ℝ :=
  (List.range (numBands + 1)).map fun (i : ℕ) =>
    (10 : ℝ) ^ (Real.logb 10 minF +
      (i : ℝ) * (Real.logb 10 maxF - Real.logb 10 minF) / (numBands : ℝ))

/-- `Equalizer.create_default_bands`. -/
def createDefaultBands (numBands : ℕ) (minF maxF : ℝ) : List DefaultBand :=
  let edges := defaultBandEdges numBands minF maxF
  (List.range numBands).map fun i =>
    { id := i + 1
      low_freq := edges.getD i 0
      high_freq := edges.getD (i + 1) 0
      scale := 1
      center_freq := Real.sqrt (edges.getD i 0 * edges.getD (i + 1) 0) }

-- ## Small helper lemmas for the equalizer layer

theorem hanning_length (M : ℕ) : (hanning M).length = M := by
  by_cases h0 : M = 0
  · simp [hanning, h0]
  · by_cases h1 : M = 1
    · simp [hanning, h0, h1]
    · simp [hanning, h0, h1]

theorem hamming_length (M : ℕ) : (hamming M).length = M := by
  by_cases h0 : M = 0
  · simp [hamming, h0]
  · by_cases h1 : M = 1
    · simp [hamming, h0, h1]
    · simp [hamming, h0, h1]

theorem getD_range (n i d : ℕ) (h : i < n) : (List.range n).getD i d = i := by
  rw [List.getD_eq_getElem _ d (by simpa using h)]
  simp

theorem getD_map_range_real (n t : ℕ) (f : ℕ → ℝ) (ht : t < n) :
    ((List.range n).map f).getD t 0 = f t := by
  rw [getD_map_lt _ f 0 0 t (by simpa using ht), getD_range n t 0 ht]

theorem hanning_getD_first (M : ℕ) (hM : 2 ≤ M) : (hanning M).getD 0 0 = 0 := by
  rw [hanning, if_neg (by omega), if_neg (by omega),
    getD_map_range_real M 0 _ (by omega)]
  norm_num

theorem hanning_getD_last (M : ℕ) (hM : 2 ≤ M) : (hanning M).getD (M - 1) 0 = 0 := by
  rw [hanning, if_neg (by omega), if_neg (by omega),
    getD_map_range_real M (M - 1) _ (by omega)]
  have hcast : ((M - 1 : ℕ) : ℝ) = (M : ℝ) - 1 := by
    push_cast [Nat.cast_sub (by omega : 1 ≤ M)]
    ring
  have hne : (M : ℝ) - 1 ≠ 0 := by
    have : (2 : ℝ) ≤ (M : ℝ) := by exact_mod_cast hM
    intro hc
    nlinarith
  rw [hcast, mul_div_assoc, div_self hne, mul_one, Real.cos_two_pi]
  norm_num

theorem countActive_eq_zero {bands : List Band} (h : ∀ b ∈ bands, b.scale = 1) :
    countActive bands = 0 := by
  induction bands with
  | nil => rfl
  | cons b bs ih =>
    rw [countActive, if_pos (h b (by simp)), ih fun c hc => h c (by simp [hc])]

theorem countActive_pos {bands : List Band} (h : ∃ b ∈ bands, b.scale ≠ 1) :
    0 < countActive bands := by
  induction bands with
  | nil => simp at h
  | cons b bs ih =>
    rw [countActive]
    by_cases hb : b.scale = 1
    · rw [if_pos hb]
      obtain ⟨c, hc, hcs⟩ := h
      rcases List.mem_cons.mp hc with rfl | hmem
      · exact absurd hb hcs
      · simpa using ih ⟨c, hmem, hcs⟩
    · rw [if_neg hb]
      omega

theorem maxAbs_le {l : List ℝ} {c : ℝ} (hc : 0 ≤ c) (h : ∀ v ∈ l, |v| ≤ c) :
    maxAbs l ≤ c := by
  rw [maxAbs]
  induction l with
  | nil => simpa using hc
  | cons v vs ih =>
    rw [List.map_cons, List.foldr_cons]
    exact max_le (h v (by simp)) (ih fun w hw => h w (by simp [hw]))

theorem rms_nonneg (l : List ℝ) : 0 ≤ rms l := Real.sqrt_nonneg _

theorem getD_zipWith (f : ℝ → ℝ → ℝ) (l1 l2 : List ℝ) (t : ℕ)
    (h1 : t < l1.length) (h2 : t < l2.length) :
    (List.zipWith f l1 l2).getD t 0 = f (l1.getD t 0) (l2.getD t 0) := by
  have hlt : t < (List.zipWith f l1 l2).length := by
    rw [List.length_zipWith]
    omega
  rw [List.getD_eq_getElem _ 0 hlt, List.getElem_zipWith,
    List.getD_eq_getElem l1 0 h1, List.getD_eq_getElem l2 0 h2]

-- ## C6: the frequency-of-bin mapping

/-- C6: for a transform of length `n` at sample rate `sr`, the equalizer's
frequency array maps bin `k` to `k·sr/n` when `k ≤ n/2` (i.e. `2k ≤ n`) and
to `k·sr/n − sr` when `k > n/2`; and the band masks of `apply_equalizer`
select bins exactly through this mapping (`bandMask` is phrased in terms of
`eqFreq`).  The instances for n = 8, sr = 8000 give bin 1 ↦ 1000 Hz and
bin 7 ↦ −1000 Hz (see the witness). -/
theorem C6_bin_frequency_mapping (n k : ℕ) (sr : ℝ) (hn : 0 < n) (hsr : 0 < sr)
    (_hk : k < n) :
    (2 * k ≤ n → eqFreq n sr k = k * sr / n) ∧
    (n < 2 * k → eqFreq n sr k = k * sr / n - sr) ∧
    (∀ b : Band, bandMask sr n b k ↔
      ((b.low_freq ≤ eqFreq n sr k ∧ eqFreq n sr k ≤ b.high_freq ∧ 0 ≤ eqFreq n sr k) ∨
       (eqFreq n sr k ≤ -b.low_freq ∧ -b.high_freq ≤ eqFreq n sr k ∧
         eqFreq n sr k < 0))) := by
  have hcond : ((k : ℝ) * sr / n > sr / 2) ↔ (n < 2 * k) := by
    rw [gt_iff_lt, div_lt_div_iff₀ (by norm_num) (by exact_mod_cast hn)]
    constructor
    · intro h
      by_contra hc
      push_neg at hc
      have hc' : (2 : ℝ) * k ≤ (n : ℝ) := by exact_mod_cast hc
      nlinarith
    · intro h
      have h' : (n : ℝ) < 2 * k := by exact_mod_cast h
      nlinarith
  refine ⟨fun hle => ?_, fun hgt => ?_, fun b => Iff.rfl⟩
  · rw [eqFreq, if_neg (by rw [hcond]; omega)]
  · rw [eqFreq, if_pos (by rw [hcond]; omega)]

theorem C6_bin_frequency_mapping_witness :
    eqFreq 8 8000 1 = 1000 ∧ eqFreq 8 8000 7 = -1000 := by
  constructor
  · have h := (C6_bin_frequency_mapping 8 1 8000 (by norm_num) (by norm_num)
      (by norm_num)).1 (by norm_num)
    rw [h]
    norm_num
  · have h := (C6_bin_frequency_mapping 8 7 8000 (by norm_num) (by norm_num)
      (by norm_num)).2.1 (by norm_num)
    rw [h]
    norm_num

-- ## C9: create_default_bands

theorem defaultBandEdges_getD (numBands : ℕ) (minF maxF : ℝ) (i : ℕ)
    (hi : i < numBands + 1) :
    (defaultBandEdges numBands minF maxF).getD i 0 =
      (10 : ℝ) ^ (Real.logb 10 minF +
        (i : ℝ) * (Real.logb 10 maxF - Real.logb 10 minF) / (numBands : ℝ)) := by
  rw [defaultBandEdges, getD_map_range_real _ i _ hi]

/-- C9: `create_default_bands(10, 20, 20000)` returns exactly 10 bands; every
scale is 1.0; consecutive bands share an edge (`high_freq` of one equals
`low_freq` of the next, so the bands are contiguous and non-overlapping); the
11 edge frequencies strictly increase; the first lower edge is exactly 20 and
the last upper edge exactly 20000; and each band's center frequency is the
geometric mean of its edges. -/
theorem C9_default_bands :
    (createDefaultBands 10 20 20000).length = 10 ∧
    (createDefaultBands 10 20 20000).map DefaultBand.scale = List.replicate 10 1 ∧
    List.Chain' (fun a b => a.high_freq = b.low_freq) (createDefaultBands 10 20 20000) ∧
    List.Chain' (fun a b : ℝ => a < b) (defaultBandEdges 10 20 20000) ∧
    ((createDefaultBands 10 20 20000).map DefaultBand.low_freq).getD 0 0 = 20 ∧
    ((createDefaultBands 10 20 20000).map DefaultBand.high_freq).getD 9 0 = 20000 ∧
    (createDefaultBands 10 20 20000).map DefaultBand.center_freq =
      (createDefaultBands 10 20 20000).map
        fun b => Real.sqrt (b.low_freq * b.high_freq) := by
  have hΔ : 0 < Real.logb 10 20000 - Real.logb 10 20 := by
    have := Real.logb_lt_logb (b := 10) (by norm_num) (by norm_num : (0:ℝ) < 20)
      (by norm_num : (20:ℝ) < 20000)
    linarith
  refine ⟨?_, ?_, ?_, ?_, ?_, ?_, ?_⟩
  · simp [createDefaultBands]
  · simp [createDefaultBands, List.map_map]
    rfl
  · rw [createDefaultBands, List.chain'_map]
    rw [show (10 : ℕ) = Nat.succ 9 from rfl, List.chain'_range_succ]
    intro m hm
    rfl
  · rw [defaultBandEdges, List.chain'_map]
    rw [show (10 + 1 : ℕ) = Nat.succ 10 from rfl, List.chain'_range_succ]
    intro m hm
    rw [Real.rpow_lt_rpow_left_iff (by norm_num)]
    push_cast
    nlinarith [hΔ]
  · rw [getD_map_lt _ DefaultBand.low_freq 0 ⟨0, 0, 0, 0, 0⟩ 0
      (by simp [createDefaultBands]), createDefaultBands,
      getD_map_lt (List.range 10) _
        ({ id := 0, low_freq := 0, high_freq := 0, scale := 0, center_freq := 0 } :
          DefaultBand) 0 0 (by simp), getD_range 10 0 0 (by norm_num)]
    show (defaultBandEdges 10 20 20000).getD 0 0 = 20
    rw [defaultBandEdges_getD 10 20 20000 0 (by norm_num)]
    have he : Real.logb 10 20 +
        ((0 : ℕ) : ℝ) * (Real.logb 10 20000 - Real.logb 10 20) / ((10 : ℕ) : ℝ)
        = Real.logb 10 20 := by
      push_cast
      ring
    rw [he]
    exact Real.rpow_logb (by norm_num) (by norm_num) (by norm_num)
  · rw [getD_map_lt _ DefaultBand.high_freq 0 ⟨0, 0, 0, 0, 0⟩ 9
      (by simp [createDefaultBands]), createDefaultBands,
      getD_map_lt (List.range 10) _
        ({ id := 0, low_freq := 0, high_freq := 0, scale := 0, center_freq := 0 } :
          DefaultBand) 0 9 (by simp), getD_range 10 9 0 (by norm_num)]
    show (defaultBandEdges 10 20 20000).getD 10 0 = 20000
    rw [defaultBandEdges_getD 10 20 20000 10 (by norm_num)]
    have he : Real.logb 10 20 +
        ((10 : ℕ) : ℝ) * (Real.logb 10 20000 - Real.logb 10 20) / ((10 : ℕ) : ℝ)
        = Real.logb 10 20000 := by
      push_cast
      field_simp
    rw [he]
    exact Real.rpow_logb (by norm_num) (by norm_num) (by norm_num)
  · rw [createDefaultBands, List.map_map, List.map_map]
    rfl

-- ## C3: length preservation of apply_equalizer

theorem applyEqualizerE_ok_length {signal : List ℝ} {bands : List Band} {sr : ℝ}
    {r : List ℝ} (h : applyEqualizerE signal bands sr = Except.ok r) :
    r.length = signal.length := by
  simp only [applyEqualizerE, eqDivide, eqLevel, eqLimit] at h
  repeat' split at h
  all_goals first
    | (injection h with h'
       rw [← h']
       simp [truncPad_length])
    | simp at h

/-- C3: for every input signal and band list, `apply_equalizer` returns a
sequence of exactly the input's length — both on the normal path (the
`processed_signal` is truncated or zero-padded back to `original_length`)
and on the exception path (the original signal is returned). -/
theorem C3_length_preservation (signal : List ℝ) (bands : List Band) (sr : ℝ) :
    (applyEqualizer signal bands sr).length = signal.length := by
  rw [applyEqualizer]
  cases h : applyEqualizerE signal bands sr with
  | error e => rfl
  | ok r => exact applyEqualizerE_ok_length h

-- ## C8: internal exceptions never propagate

/-- C8: whenever the `try:` body of `apply_equalizer` raises (modelled by
`applyEqualizerE` returning `Except.error`), the caller receives the
unmodified original signal rather than an exception. -/
theorem C8_exception_returns_original (signal : List ℝ) (bands : List Band) (sr : ℝ)
    (e : Unit) (h : applyEqualizerE signal bands sr = Except.error e) :
    applyEqualizer signal bands sr = signal := by
  rw [applyEqualizer, h]

theorem C8_exception_returns_original_witness :
    applyEqualizerE [] [] 44100 = Except.error () ∧
    applyEqualizer ([] : List ℝ) [] 44100 = [] := by
  have he : applyEqualizerE [] [] 44100 = Except.error () := by
    simp [applyEqualizerE, eqDivide, eqLevel, eqLimit, countActive, truncPad, rms, mean,
      hanning, fft]
  exact ⟨he, C8_exception_returns_original [] [] 44100 () he⟩

-- ## C7: fft degenerate and padding behaviour

/-- C7: `FFTProcessor.fft` satisfies the degenerate and padding rules: it
returns the empty list on empty input and length-1 inputs unchanged; an
input whose length is not a power of two (`n & (n-1) != 0`) is right-padded
with zeros to the next power of two `2^⌈log2 n⌉` before `fft_iterative`
runs, which is at least the input length, and the output has exactly that
padded power-of-two length; an input whose length is already a power of
two is passed to `fft_iterative` without padding and the output length
equals the input length (no exception arises: the model is total); and an
all-zero input produces an all-zero spectrum. -/
theorem C7_fft_edge_cases :
    fft [] = [] ∧
    (∀ z : ℂ, fft [z] = [z]) ∧
    (∀ x : List ℂ, 2 ≤ x.length → x.length &&& (x.length - 1) ≠ 0 →
      fft x = fftIter (x ++ List.replicate (2 ^ Nat.clog 2 x.length - x.length) 0) ∧
      (fft x).length = 2 ^ Nat.clog 2 x.length ∧
      x.length ≤ 2 ^ Nat.clog 2 x.length) ∧
    (∀ x : List ℂ, 2 ≤ x.length → x.length &&& (x.length - 1) = 0 →
      fft x = fftIter x ∧ (fft x).length = x.length) ∧
    (∀ n : ℕ, ∀ z ∈ fft (List.replicate n 0), z = 0) := by
  refine ⟨rfl, fun z => rfl, fun x h2 hnp => ?_, fun x h2 hp => ?_, fun n => ?_⟩
  · refine ⟨?_, ?_, Nat.le_pow_clog one_lt_two _⟩
    · rw [fft, if_neg (by omega), if_pos hnp]
    · rw [fft, if_neg (by omega), if_pos hnp, fftIter_length, List.length_append,
        List.length_replicate]
      have := Nat.le_pow_clog one_lt_two x.length
      omega
  · constructor
    · rw [fft, if_neg (by omega), if_neg (by simpa using hp)]
    · rw [fft, if_neg (by omega), if_neg (by simpa using hp), fftIter_length]
  · intro z hz
    rcases le_or_lt n 1 with hn | hn
    · interval_cases n
      · simp [fft] at hz
      · simpa [fft] using hz
    · have hrep : ∀ (m : ℕ) (bits : ℕ), m = 2 ^ bits →
          ∀ w ∈ fftIter (List.replicate m (0 : ℂ)), w = 0 := by
        intro m bits hm w hw
        rw [List.mem_iff_getElem] at hw
        obtain ⟨t, ht, hwt⟩ := hw
        have hlen : (fftIter (List.replicate m (0:ℂ))).length = m := by
          rw [fftIter_length, List.length_replicate]
        have ht' : t < 2 ^ bits := by
          rw [hlen] at ht
          omega
        have hval := fftIter_dft bits (List.replicate m 0) (by simpa using hm) t ht'
        have hgz : ∀ s, (List.replicate m (0:ℂ)).getD s 0 = 0 := by
          intro s
          rw [List.getD_eq_getElem?_getD, List.getElem?_replicate]
          split <;> rfl
        rw [← List.getD_eq_getElem _ 0 ht] at hwt
        rw [← hwt, hval]
        rw [Finset.sum_congr rfl fun s _ => by rw [hgz s, zero_mul]]
        exact Finset.sum_const_zero
      rw [fft, List.length_replicate] at hz
      rw [if_neg (by omega)] at hz
      by_cases hp : n &&& (n - 1) ≠ 0
      · rw [if_pos hp] at hz
        have hrepl : List.replicate n (0:ℂ) ++
            List.replicate (2 ^ Nat.clog 2 n - n) 0 =
            List.replicate (n + (2 ^ Nat.clog 2 n - n)) 0 := (List.replicate_add _ _ _).symm
        rw [hrepl] at hz
        have hle := Nat.le_pow_clog one_lt_two n
        exact hrep _ (Nat.clog 2 n) (by omega) z hz
      · rw [if_neg hp] at hz
        push_neg at hp
        obtain ⟨bits, hbits⟩ := pow2_of_land_pred (by omega) hp
        exact hrep n bits hbits z hz

theorem C7_fft_edge_cases_witness :
    fft [] = [] ∧ fft [(5 : ℂ)] = [5] ∧
    (fft [1, 1, 1] = fftIter [1, 1, 1, 0] ∧ (fft [1, 1, 1] : List ℂ).length = 4) ∧
    (fft [1, 1] = fftIter [1, 1] ∧ (fft [1, 1] : List ℂ).length = 2) ∧
    ∀ z ∈ fft (List.replicate 2 (0 : ℂ)), z = 0 := by
  have hc := C7_fft_edge_cases
  have h3 : ([1, 1, 1] : List ℂ).length = 3 := rfl
  have hclog : 2 ^ Nat.clog 2 3 = 4 := by
    have h1 : Nat.clog 2 3 ≤ 2 := by
      rw [← Nat.le_pow_iff_clog_le one_lt_two]
      norm_num
    have h2 : ¬ Nat.clog 2 3 ≤ 1 := by
      rw [← Nat.le_pow_iff_clog_le one_lt_two]
      norm_num
    have h32 : Nat.clog 2 3 = 2 := by omega
    rw [h32]
    norm_num
  refine ⟨hc.1, hc.2.1 5, ?_, ?_, fun z hz => hc.2.2.2.2 2 z hz⟩
  · have h := hc.2.2.1 [1, 1, 1] (by rw [h3]; norm_num) (by rw [h3]; decide)
    refine ⟨?_, ?_⟩
    · rw [h.1, h3, hclog]
      norm_num
    · rw [h.2.1, h3, hclog]
  · have h := hc.2.2.2.1 [1, 1] (by norm_num) (by decide)
    exact ⟨h.1, by rw [h.2]; rfl⟩

-- ## C2: unity-gain bands

theorem hanning_two : hanning 2 = [0, 0] := by
  rw [hanning]
  norm_num [List.range_succ, Real.cos_two_pi]

theorem applyEqualizerE_unity_long (signal : List ℝ) (bands : List Band) (sr : ℝ)
    (hlen : 2048 ≤ signal.length) (hunit : ∀ b ∈ bands, b.scale = 1)
    (hpeak : ∀ v ∈ signal, |v| ≤ 0.95) :
    applyEqualizerE signal bands sr = Except.ok signal := by
  have hca : countActive bands = 0 := countActive_eq_zero hunit
  have hnot : ¬ signal.length < 2048 := by omega
  have hmax : maxAbs signal ≤ 0.95 := maxAbs_le (by norm_num) hpeak
  simp only [applyEqualizerE, eqDivide, eqLevel, eqLimit, hca, if_neg hnot,
    lt_self_iff_false, if_false, truncPad_of_length]
  by_cases hrms : 0 < rms signal
  · have hratio : rms signal / rms signal = 1 := div_self (ne_of_gt hrms)
    rw [hratio]
    have hcond : 0 < rms signal ∧ 0 < rms signal ∧ (0.1 : ℝ) < 1 ∧ (1 : ℝ) < 10 :=
      ⟨hrms, hrms, by norm_num, by norm_num⟩
    rw [if_pos hcond]
    have hmap : signal.map (fun v => v * (1 : ℝ)) = signal := by simp
    rw [hmap, if_neg (show ¬ signal.length = 0 by omega), if_neg (not_lt.mpr hmax)]
  · have hcond : ¬ (0 < rms signal ∧ 0 < rms signal ∧
        0.1 < rms signal / rms signal ∧ rms signal / rms signal < 10) :=
      fun hc => hrms hc.1
    rw [if_neg hcond, if_neg (show ¬ signal.length = 0 by omega),
      if_neg (not_lt.mpr hmax)]

/-- C2 (amended): a band list in which every scale is exactly 1.0 leaves the
signal unchanged (even exactly, not merely within 1e-9) — but only for
signals of length at least 2048 whose samples satisfy `|x| ≤ 0.95`.  For
shorter signals the claim is false: `apply_equalizer` divides the
*unwindowed* signal by the Hann window (zero at the endpoints), so unity
bands still perturb it (see the counterexample); and a peak above 0.95
triggers the tanh soft limiter even with unity bands. -/
theorem C2_unity_passthrough_amended (signal : List ℝ) (bands : List Band) (sr : ℝ)
    (hlen : 2048 ≤ signal.length) (hunit : ∀ b ∈ bands, b.scale = 1)
    (hpeak : ∀ v ∈ signal, |v| ≤ 0.95) :
    applyEqualizer signal bands sr = signal := by
  rw [applyEqualizer, applyEqualizerE_unity_long signal bands sr hlen hunit hpeak]

theorem C2_unity_passthrough_amended_witness :
    applyEqualizer (List.replicate 2048 (1 / 2 : ℝ)) [⟨20, 20000, 1⟩] 44100
      = List.replicate 2048 (1 / 2 : ℝ) := by
  refine C2_unity_passthrough_amended _ _ _ (le_of_eq (List.length_replicate 2048 _).symm) ?_ ?_
  · intro b hb
    rcases List.mem_singleton.mp hb with rfl
    rfl
  · intro v hv
    rcases List.eq_of_mem_replicate hv with rfl
    rw [abs_of_pos (by norm_num)]
    norm_num

/-- C2 (counterexample): for the length-2 signal `[1, 1]` and a single band
with scale exactly 1.0, `apply_equalizer` returns `[0, 0]` — the original
claim's tolerance `|out - in| ≤ 1e-9` fails at index 0 (`|0 - 1| = 1`).
The unity bands are skipped, but the code still divides the original signal
by the Hann window `[0, 0]`, and `nan_to_num` maps the resulting `inf`s
to `0`. -/
theorem C2_unity_counterexample :
    applyEqualizer [1, 1] [⟨20, 20000, 1⟩] 44100 = [0, 0] ∧
    ¬ |(applyEqualizer [1, 1] [⟨20, 20000, 1⟩] 44100).getD 0 0 - (1 : ℝ)| ≤ 1e-9 := by
  have hca : countActive [(⟨20, 20000, 1⟩ : Band)] = 0 := by
    simp [countActive]
  have he : applyEqualizerE [1, 1] [⟨20, 20000, 1⟩] 44100 = Except.ok [0, 0] := by
    simp only [applyEqualizerE, eqDivide, eqLevel, eqLimit, hca, lt_self_iff_false,
      if_false, List.length_cons, List.length_nil, hanning_two]
    simp [hanning_two, truncPad, rms, mean, maxAbs]
  have happ : applyEqualizer [1, 1] [⟨20, 20000, 1⟩] 44100 = [0, 0] := by
    rw [applyEqualizer, he]
  refine ⟨happ, ?_⟩
  rw [happ]
  norm_num

-- ## C10: Hann window compensation zeroes the endpoints

theorem eqScaleBins_length (sr : ℝ) (F : List ℂ) (bands : List Band) :
    (eqScaleBins sr F bands).length = F.length := by
  rw [eqScaleBins]
  suffices h : ∀ init : List ℂ, init.length = F.length →
      (bands.foldl (fun of b => if b.scale = 1 then of
        else (List.range F.length).map fun k =>
          if bandMask sr F.length b k then F.getD k 0 * (b.scale : ℂ)
          else of.getD k 0) init).length = F.length from h F rfl
  induction bands with
  | nil =>
    intro init h
    simpa using h
  | cons b bs ih =>
    intro init h
    rw [List.foldl_cons]
    by_cases hb : b.scale = 1
    · rw [if_pos hb]
      exact ih init h
    · rw [if_neg hb]
      exact ih _ (by simp)

theorem ifft_pow2_length (bits : ℕ) (X : List ℂ) (hX : X.length = 2 ^ bits) :
    (ifft X).length = 2 ^ bits := by
  rw [ifft_length]
  exact fft_pow2_length bits _ (by rw [List.length_map]; exact hX)

theorem eqLevel_length (s t : List ℝ) : (eqLevel s t).length = t.length := by
  rw [eqLevel]
  split
  · rw [List.length_map]
  · rfl

theorem eqLevel_getD_zero (s t : List ℝ) (i : ℕ) (hi : i < t.length)
    (h0 : t.getD i 0 = 0) : (eqLevel s t).getD i 0 = 0 := by
  rw [eqLevel]
  split
  · rw [getD_map_lt t _ 0 0 i hi, h0, zero_mul]
  · exact h0

theorem eqLimit_ok_getD_zero (l : List ℝ) (i : ℕ) (hi : i < l.length)
    (hne : ¬ l.length = 0) (h0 : l.getD i 0 = 0) :
    ∃ r, eqLimit l = Except.ok r ∧ r.getD i 0 = 0 := by
  rw [eqLimit, if_neg hne]
  by_cases hm : 0.95 < maxAbs l
  · rw [if_pos hm]
    exact ⟨_, rfl, by rw [getD_map_lt l _ 0 0 i hi, h0, zero_mul, Real.tanh_zero, zero_mul]⟩
  · rw [if_neg hm]
    exact ⟨l, rfl, h0⟩

theorem applyEqualizerE_short_zero_at (signal : List ℝ) (bands : List Band) (sr : ℝ)
    (k i : ℕ) (hlen : signal.length = 2 ^ k) (hlt : signal.length < 2048)
    (hi : i < signal.length) (hwz : (hanning signal.length).getD i 0 = 0)
    (hactive : ∃ b ∈ bands, b.scale ≠ 1) :
    ∃ r, applyEqualizerE signal bands sr = Except.ok r ∧ r.getD i 0 = 0 := by
  have hca : 0 < countActive bands := countActive_pos hactive
  simp only [applyEqualizerE, if_pos hlt, if_pos hca]
  have hwin : (hanning signal.length).length = signal.length := hanning_length _
  have hwl : (List.zipWith (fun a w => a * w) signal (hanning signal.length)).length
      = signal.length := by
    rw [List.length_zipWith, hwin, min_self]
  set F := fft ((List.zipWith (fun a w => a * w) signal (hanning signal.length)).map
    Complex.ofReal) with hF
  set P := ifft (eqScaleBins sr F bands) with hP
  have hFlen : F.length = 2 ^ k := by
    rw [hF]
    exact fft_pow2_length k _ (by rw [List.length_map, hwl, hlen])
  have hPlen : P.length = signal.length := by
    rw [hP, ifft_pow2_length k _ (by rw [eqScaleBins_length]; exact hFlen), hlen]
  have hdiv : eqDivide signal.length P (hanning signal.length)
      = Except.ok (List.zipWith (fun a w => a / w) P (hanning signal.length)) := by
    rw [eqDivide, if_pos hlt, if_pos (by rw [hPlen, hwin])]
  rw [hdiv]
  set d := List.zipWith (fun a w => a / w) P (hanning signal.length) with hd
  have hdlen : d.length = signal.length := by
    rw [hd, List.length_zipWith, hPlen, hwin, min_self]
  have hd0 : d.getD i 0 = 0 := by
    rw [hd, getD_zipWith _ _ _ i (by rw [hPlen]; exact hi) (by rw [hwin]; exact hi),
      hwz, div_zero]
  have htr0 : (truncPad signal.length d).getD i 0 = 0 := by
    rw [truncPad_getD signal.length d i hi (by rw [hdlen]; exact hi), hd0]
  have hlv0 : (eqLevel signal (truncPad signal.length d)).getD i 0 = 0 :=
    eqLevel_getD_zero signal _ i (by rw [truncPad_length]; exact hi) htr0
  obtain ⟨r, hr, hr0⟩ := eqLimit_ok_getD_zero (eqLevel signal (truncPad signal.length d)) i
    (by rw [eqLevel_length, truncPad_length]; exact hi)
    (by rw [eqLevel_length, truncPad_length]; omega) hlv0
  exact ⟨r, hr, hr0⟩

/-- C10 (amended): for a signal whose length is a power of two with
`2 ≤ length < 2048` and at least one band whose scale is not 1, the
equalizer multiplies by a Hann window before the transform and divides by
the same window afterwards, so the first and last output samples (where the
Hann window is zero, making the division `0/0 ↦ 0` under `nan_to_num`) are
exactly 0.  The power-of-two restriction is necessary: for other short
lengths the FFT zero-pads, the division raises a broadcasting error, and
the original signal is returned unchanged (see the counterexample). -/
theorem C10_hann_endpoint_zeroing (signal : List ℝ) (bands : List Band) (sr : ℝ)
    (k : ℕ) (hlen : signal.length = 2 ^ k) (hk : 1 ≤ k) (hlt : signal.length < 2048)
    (hactive : ∃ b ∈ bands, b.scale ≠ 1) :
    (applyEqualizer signal bands sr).getD 0 0 = 0 ∧
    (applyEqualizer signal bands sr).getD (signal.length - 1) 0 = 0 := by
  have hn2 : 2 ≤ signal.length := by
    rw [hlen]
    calc (2 : ℕ) = 2 ^ 1 := rfl
      _ ≤ 2 ^ k := Nat.pow_le_pow_right (by norm_num) hk
  obtain ⟨r0, hr0, hz0⟩ := applyEqualizerE_short_zero_at signal bands sr k 0 hlen hlt
    (by omega) (hanning_getD_first _ hn2) hactive
  obtain ⟨r1, hr1, hz1⟩ := applyEqualizerE_short_zero_at signal bands sr k
    (signal.length - 1) hlen hlt (by omega) (hanning_getD_last _ hn2) hactive
  have happ : applyEqualizer signal bands sr = r0 := by
    rw [applyEqualizer, hr0]
  have heq : r0 = r1 := Except.ok.inj (hr0 ▸ hr1)
  constructor
  · rw [happ]
    exact hz0
  · rw [happ, heq]
    exact hz1

theorem C10_hann_endpoint_zeroing_witness :
    (applyEqualizer [1, 1] [⟨0, 30000, 2⟩] 44100).getD 0 0 = 0 ∧
    (applyEqualizer [1, 1] [⟨0, 30000, 2⟩] 44100).getD 1 0 = 0 := by
  have h := C10_hann_endpoint_zeroing [1, 1] [⟨0, 30000, 2⟩] 44100 1 rfl le_rfl
    (by norm_num) ⟨⟨0, 30000, 2⟩, List.mem_singleton.mpr rfl, by norm_num⟩
  exact h

/-- C10 (counterexample to the unrestricted claim): for the length-3 signal
`[1, 1, 1]` (with `2 ≤ 3 < 2048`) and a single active band of scale 2, the
FFT zero-pads to length 4, the division `processed_signal / window` raises
a broadcasting error (4 ≠ 3), and `apply_equalizer` returns the original
signal — so the first output sample is 1, not 0. -/
theorem C10_hann_endpoint_counterexample :
    applyEqualizer [1, 1, 1] [⟨0, 30000, 2⟩] 44100 = [1, 1, 1] ∧
    (applyEqualizer [1, 1, 1] [⟨0, 30000, 2⟩] 44100).getD 0 0 ≠ 0 := by
  have hca : 0 < countActive [(⟨0, 30000, 2⟩ : Band)] := by
    norm_num [countActive]
  have hclog : 2 ^ Nat.clog 2 3 = 4 := by
    have h1 : Nat.clog 2 3 ≤ 2 := (Nat.le_pow_iff_clog_le one_lt_two).mp (by norm_num)
    have h2 : ¬ Nat.clog 2 3 ≤ 1 := fun hc => by
      have h3 := (Nat.le_pow_iff_clog_le one_lt_two).mpr hc
      norm_num at h3
    have h4 : Nat.clog 2 3 = 2 := by omega
    rw [h4]
    norm_num
  have hwl : (List.zipWith (fun a w => a * w) [(1 : ℝ), 1, 1] (hanning 3)).length = 3 := by
    rw [List.length_zipWith, hanning_length]
    simp
  have hF : (fft ((List.zipWith (fun a w => a * w) [(1 : ℝ), 1, 1] (hanning 3)).map
      Complex.ofReal)).length = 4 := by
    rw [fft_length]
    simp only [List.length_map]
    rw [hwl, if_neg (by norm_num), if_pos (by decide), hclog]
  have hproc : (ifft (eqScaleBins 44100 (fft ((List.zipWith (fun a w => a * w)
      [(1 : ℝ), 1, 1] (hanning 3)).map Complex.ofReal)) [⟨0, 30000, 2⟩])).length = 4 :=
    ifft_pow2_length 2 _ (by rw [eqScaleBins_length, hF]; norm_num)
  have hdiv : eqDivide 3 (ifft (eqScaleBins 44100 (fft ((List.zipWith
      (fun a w => a * w) [(1 : ℝ), 1, 1] (hanning 3)).map Complex.ofReal))
      [⟨0, 30000, 2⟩])) (hanning 3) = Except.error () := by
    rw [eqDivide, if_pos (by norm_num : (3 : ℕ) < 2048),
      if_neg (by rw [hproc, hanning_length]; norm_num)]
  have hL3 : ([(1 : ℝ), 1, 1]).length = 3 := rfl
  have he : applyEqualizerE [1, 1, 1] [⟨0, 30000, 2⟩] 44100 = Except.error () := by
    simp only [applyEqualizerE, hL3, if_pos hca, if_pos (show (3 : ℕ) < 2048 by norm_num)]
    rw [hdiv]
  have happ : applyEqualizer [1, 1, 1] [⟨0, 30000, 2⟩] 44100 = [1, 1, 1] := by
    rw [applyEqualizer, he]
  refine ⟨happ, ?_⟩
  rw [happ]
  norm_num

-- ## C4: the visualization spectrum

theorem spectrumFreq_bound (sr : ℝ) (hsr : 0 < sr) (N : ℕ) (k : ℕ)
    (hk : k ∈ (List.range (N / 2)).filter fun (j : ℕ) => decide (0 < (j : ℝ) * sr / N)) :
    0 < (k : ℝ) * sr / N ∧ (k : ℝ) * sr / N ≤ sr / 2 := by
  simp only [List.mem_filter, List.mem_range, decide_eq_true_eq] at hk
  obtain ⟨hkr, hpos⟩ := hk
  refine ⟨hpos, ?_⟩
  have h2k : 2 * k < N := by omega
  have hNc : (0 : ℝ) < N := by exact_mod_cast (by omega : 0 < N)
  rw [div_le_div_iff₀ hNc two_pos]
  have hc : (2 * k : ℝ) ≤ (N : ℝ) := by exact_mod_cast h2k.le
  nlinarith [mul_le_mul_of_nonneg_left hc hsr.le]

/-- C4 (amended): `compute_fft_spectrum` performs none of the claimed DC
removal, Hann windowing, dB conversion, clipping or rescaling; what it does
guarantee is that magnitude and frequency lists have equal length, the
magnitudes `|X[k]|/n` are nonnegative (but not bounded by 1 — see the
counterexample), and every returned frequency lies in `(0, sr/2]`. -/
theorem C4_spectrum_amended (signal : List ℝ) (sr : ℝ) (hsr : 0 < sr) :
    (computeFftSpectrum signal sr).magnitude.length
      = (computeFftSpectrum signal sr).frequencies.length ∧
    (∀ m ∈ (computeFftSpectrum signal sr).magnitude, 0 ≤ m) ∧
    (∀ f ∈ (computeFftSpectrum signal sr).frequencies, 0 < f ∧ f ≤ sr / 2) := by
  simp only [computeFftSpectrum]
  split
  all_goals
    split
    · exact ⟨rfl, by simp, by simp⟩
    · refine ⟨by simp, ?_, ?_⟩
      · intro m hm
        simp only [List.mem_map] at hm
        obtain ⟨k, hk, rfl⟩ := hm
        exact div_nonneg (Complex.abs.nonneg _) (Nat.cast_nonneg _)
      · intro f hf
        simp only [List.mem_map] at hf
        obtain ⟨k, hk, rfl⟩ := hf
        exact spectrumFreq_bound sr hsr _ k hk

theorem C4_spectrum_amended_witness :
    (0 : ℝ) < 44100 ∧
    ((computeFftSpectrum [1, 2, 3] 44100).magnitude.length
      = (computeFftSpectrum [1, 2, 3] 44100).frequencies.length ∧
     (∀ m ∈ (computeFftSpectrum [1, 2, 3] 44100).magnitude, 0 ≤ m) ∧
     (∀ f ∈ (computeFftSpectrum [1, 2, 3] 44100).frequencies, 0 < f ∧ f ≤ 44100 / 2)) :=
  ⟨by norm_num, C4_spectrum_amended [1, 2, 3] 44100 (by norm_num)⟩

/-- C4 (counterexample): for the signal `[10, 0, -10, 0]` at sample rate 4
the returned magnitude list is `[5]` — the single kept bin has magnitude
`|X₁|/n = 20/4 = 5 > 1`, so the output is not rescaled to `[0, 1]` (and
none of the claimed dB pipeline is applied). -/
theorem C4_spectrum_counterexample :
    (computeFftSpectrum [10, 0, -10, 0] 4).magnitude = [5] ∧
    ∃ m ∈ (computeFftSpectrum [10, 0, -10, 0] 4).magnitude, 1 < m := by
  have ht2 : tw 4 2 = -1 := by
    have h := tw_half_neg 2 0 (by norm_num)
    rw [tw_zero] at h
    norm_num at h
    exact h
  have hF1 : (fft (([(10 : ℝ), 0, -10, 0]).map Complex.ofReal)).getD 1 0 = 20 := by
    rw [fft_dft 2 _ (by simp) 1 (by norm_num)]
    norm_num [Finset.sum_range_succ, tw_zero, ht2]
  have hFlen : (fft (([(10 : ℝ), 0, -10, 0]).map Complex.ofReal)).length = 4 := by
    rw [fft_length, List.length_map,
      show ([(10 : ℝ), 0, -10, 0]).length = 4 from rfl]
    rw [if_neg (by norm_num), if_neg (by decide)]
  have hkeep : (List.range
        ((fft (([(10 : ℝ), 0, -10, 0]).map Complex.ofReal)).length / 2)).filter
      (fun (k : ℕ) => decide (0 < (k : ℝ) * (4 : ℝ) /
        (fft (([(10 : ℝ), 0, -10, 0]).map Complex.ofReal)).length)) = [1] := by
    rw [hFlen]
    norm_num [List.filter_cons, List.filter_nil,
      show List.range 2 = [0, 1] from rfl]
  have hmag : (computeFftSpectrum [10, 0, -10, 0] 4).magnitude = [5] := by
    simp only [computeFftSpectrum]
    rw [if_neg (by norm_num : ¬ (1024 < ([(10 : ℝ), 0, -10, 0]).length))]
    rw [if_neg (by norm_num : ¬ (([(10 : ℝ), 0, -10, 0]).length = 0))]
    rw [hkeep]
    simp only [List.map_singleton]
    rw [hF1, hFlen]
    norm_num [Complex.abs_ofNat]
  refine ⟨hmag, 5, ?_, by norm_num⟩
  rw [hmag]
  simp

-- ## C5: spectrogram orientation and shape

theorem transposeRect_length (m : List (List ℝ)) :
    (transposeRect m).length = (m.headD []).length := by
  rw [transposeRect, List.length_map, List.length_range]

theorem transposeRect_mem_length (m : List (List ℝ)) (row : List ℝ)
    (hrow : row ∈ transposeRect m) : row.length = m.length := by
  rw [transposeRect] at hrow
  simp only [List.mem_map] at hrow
  obtain ⟨j, hj, rfl⟩ := hrow
  rw [List.length_map]

theorem spectrogram_shape_4096 (signal : List ℝ) (h : signal.length = 4096) :
    (computeSpectrogram signal 1024 512).length = 512 ∧
    ∀ row ∈ computeSpectrogram signal 1024 512, row.length = 7 := by
  have hnw : (1 + Int.fdiv (((4096 : ℕ) : ℤ) - ((1024 : ℕ) : ℤ)) ((512 : ℕ) : ℤ)) = 7 := by
    decide
  simp only [computeSpectrogram, h]
  rw [if_neg (show ¬((4096 : ℕ) = 0) by norm_num)]
  rw [hnw]
  rw [if_neg (show ¬((7 : ℤ) ≤ 0) by decide)]
  rw [if_neg (show ¬((7 : ℤ) ≤ 0 ∧ (4096 : ℕ) < 1024) by decide)]
  rw [show ((7 : ℤ)).toNat = 7 from rfl]
  simp only [h]
  constructor
  · rw [transposeRect_length]
    rw [show List.range 7 = [0, 1, 2, 3, 4, 5, 6] by decide]
    simp only [List.map_cons, List.headD_cons]
    rw [if_neg (show ¬((4096 : ℕ) < 0 * 512 + 1024) by norm_num)]
    have hW : ((signal.drop (0 * 512)).take 1024).length = 1024 := by
      rw [List.length_take, List.length_drop, h]
      omega
    have hT : (List.zipWith (fun a w => a * w) ((signal.drop (0 * 512)).take 1024)
        (hamming ((signal.drop (0 * 512)).take 1024).length)).length = 1024 := by
      rw [List.length_zipWith, hamming_length, hW, min_self]
    have hFlen : (fft ((List.zipWith (fun a w => a * w) ((signal.drop (0 * 512)).take 1024)
        (hamming ((signal.drop (0 * 512)).take 1024).length)).map Complex.ofReal)).length
        = 1024 := by
      rw [fft_pow2_length 10 _ (by rw [List.length_map, hT]; norm_num)]
      norm_num
    rw [List.length_map, List.length_take, hFlen]
    omega
  · intro row hrow
    rw [transposeRect_mem_length _ _ hrow, List.length_map, List.length_range]

/-- C5 (amended): `compute_spectrogram` is *frequency-major*, not frame-major:
the per-frame dB rows are transposed by `np.array(spectrogram).T` before
being returned, so for a length-4096 signal with window 1024 and hop 512 the
outer list has 512 entries (one per frequency bin) and every inner list has
7 entries (one per chronological frame) — the transpose of the frame-major
`7 × 512` shape claimed by the spec. -/
theorem C5_spectrogram_amended (signal : List ℝ) (h : signal.length = 4096) :
    (computeSpectrogram signal 1024 512).length = 512 ∧
    ∀ row ∈ computeSpectrogram signal 1024 512, row.length = 7 :=
  spectrogram_shape_4096 signal h

theorem C5_spectrogram_amended_witness :
    (List.replicate 4096 (0 : ℝ)).length = 4096 ∧
    ((computeSpectrogram (List.replicate 4096 (0 : ℝ)) 1024 512).length = 512 ∧
     ∀ row ∈ computeSpectrogram (List.replicate 4096 (0 : ℝ)) 1024 512, row.length = 7) :=
  ⟨List.length_replicate 4096 _,
   C5_spectrogram_amended _ (List.length_replicate 4096 _)⟩

/-- C5 (counterexample): the outer list returned for a length-4096 signal
with window 1024 and hop 512 does not have 7 entries (it has 512), so the
output is not frame-major as claimed. -/
theorem C5_spectrogram_counterexample :
    (computeSpectrogram (List.replicate 4096 (0 : ℝ)) 1024 512).length ≠ 7 := by
  have hs := spectrogram_shape_4096 (List.replicate 4096 (0 : ℝ))
    (List.length_replicate 4096 _)
  rw [hs.1]
  norm_num
